import Mathlib

/-!
Verification of the pair-research matching algorithm.

This file gives a shallow embedding of the two source files that the claims
concern:

* stable-matching/stable_roommates.py : Irving's stable-roommates algorithm
  (validate_input, phase_1, phase_1_reduce, find_all_or_nothing_cycle,
  phase_2_reduce, verify_matching, verify_stability, format_output,
  stable_roommates);
* pair_research.py : adjust_undirected_graph and the combiner that merges the
  stable-roommates result with a maximum-weight-matching fallback.

Modelling conventions:
* Participants are naturals (the Python code uses the decimal strings
  '1'..'n' as dict keys; the bijection str/int is dropped).
* Python dicts are modelled as total functions `Person → _` together with an
  explicit key list `people`; iteration over a dict is modelled as iteration
  over `people` in ascending order (the concrete CPython hash order is
  unspecified; every place where the code iterates a dict either has an
  order-independent result or is an arbitrary-choice point).
* Fallible operations (list indexing, dict lookup, len() on a non-sized
  value, reading an unbound local) return `Except PyErr _`; each unbounded
  Python `while` loop takes an explicit fuel argument and reports `fuelOut`
  when it runs out, so every definition is executable by the kernel.
* `random.shuffle` of the proposal order is modelled by passing the shuffled
  order(s) explicitly: `phase_1` takes the order as a list, and
  `stable_roommates` takes a stream `os : Nat → List Person` supplying the
  order used by its k-th internal `phase_1` invocation.
-/

namespace PairMatching

/-- Python runtime errors that the modelled code can raise. `fuelOut` is not a
Python error: it signals that the explicit fuel of a modelled `while` loop was
exhausted. -/
inductive PyErr where
  | typeError
  | indexError
  | keyError
  | nameError
  | fuelOut
  deriving DecidableEq, Repr

/-- Python values, as far as the validation code needs to distinguish them:
integers, strings (a sized non-list value) and lists. -/
inductive PyVal where
  | int (n : Int)
  | str (s : String)
  | list (xs : List PyVal)

abbrev Person := Nat

/-- Python list indexing with a non-negative index: raises IndexError when out
of range. -/
def pyGet {α : Type} (xs : List α) (i : Nat) : Except PyErr α :=
  match xs.get? i with
  | some v => .ok v
  | none => .error .indexError

/-- Python len(): defined for lists and strings, TypeError otherwise. -/
def pyLen : PyVal → Except PyErr Nat
  | .list xs => .ok xs.length
  | .str s => .ok s.length
  | .int _ => .error .typeError

/-- Pointwise update of a dict modelled as a total function. -/
def fupd {α : Type} (f : Person → α) (p : Person) (v : α) : Person → α :=
  fun q => if q = p then v else f q

/-! ### validate_input (stable_roommates.py lines 332-421) -/

/-- The inner entry loop of validate_input: each entry must be an int j with
1 ≤ j ≤ n and j ≠ i+1 (no self-preference). Returns the entries as ints when
all checks pass, none otherwise. -/
def checkEntries (n i : Nat) : List PyVal → Option (List Int)
  | [] => some []
  | .int j :: rest =>
      if j < 1 ∨ (n : Int) < j ∨ j = (i : Int) + 1 then none
      else (checkEntries n i rest).map (fun js => j :: js)
  | _ :: _ => none

/-- The row loop of validate_input: each row must be a list of length at most
m = n-1 whose entries pass `checkEntries`. -/
def checkRows (n : Nat) : Nat → List PyVal → Option (List (List Int))
  | _, [] => some []
  | i, .list entries :: rest =>
      if n - 1 < entries.length then none
      else
        match checkEntries n i entries with
        | none => none
        | some js =>
            match checkRows n (i + 1) rest with
            | none => none
            | some rs => some (js :: rs)
  | _, _ :: _ => none

/-- Completion of one original row: if it does not already have m = n-1
entries, append the missing participants (full_set − row − {i+1}; a CPython-2
set of small ints iterates ascending, which is the order modelled here), then
append the phantom participant n+1 when one was added. -/
def fillRow (n : Nat) (pa : Bool) (i : Nat) (row : List Int) : List Int :=
  let row1 :=
    if row.length ≠ n - 1 then
      row ++ ((List.range' 1 n).map (fun (v : Nat) => (v : Int))).filter
        (fun v => ¬ v ∈ row ∧ v ≠ (i : Int) + 1)
    else row
  if pa then row1 ++ [(n : Int) + 1] else row1

/-- The `for i in range(n)` completion loop: rows with index < n are
completed by `fillRow`; the phantom row (index n, when present) is left
untouched. -/
def fillRows (n : Nat) (pa : Bool) : Nat → List (List Int) → List (List Int)
  | _, [] => []
  | i, row :: rest =>
      (if i < n then fillRow n pa i row else row) :: fillRows n pa (i + 1) rest

/-- validate_input. Returns `.ok none` when the matrix is invalid, and
`.ok (some (person_added, filled_matrix))` when valid (the Python triple
(False, pa, None) / (True, pa, matrix) is folded into an Option).

Faithful quirk: the source computes `n = len(output_matrix)` (line 354)
*before* the `type(output_matrix) is not list` check (line 360), so a
top-level value without a length (e.g. an int) raises TypeError instead of
being reported as invalid. -/
def validate_input (pm : PyVal) : Except PyErr (Option (Bool × List (List Int))) := do
  let n ← pyLen pm
  match pm with
  | .list rows =>
      if n ≤ 1 then .ok none
      else
        match checkRows n 0 rows with
        | none => .ok none
        | some mat =>
            let pa := n % 2 ≠ 0
            let mat1 :=
              if pa then mat ++ [(List.range' 1 n).map (fun (v : Nat) => (v : Int))] else mat
            .ok (some (pa, fillRows n pa 0 mat1))
  | _ => .ok none

/-! ### Preference dict and rank table (stable_roommates.py lines 38-44) -/

/-- preferences_dict: person p (1-indexed) maps to row p-1 of the validated
matrix. Entries are in [1,n] by validation, so the Int→Nat cast is exact. -/
def prefsOfMatrix (M : List (List Int)) : Person → List Person :=
  fun p => (M.getD (p - 1) []).map Int.toNat

/-- Index of the last occurrence of b (dict(zip(value, range(len(value))))
keeps the index of the last occurrence when a list has duplicates). -/
def lastIdx (b : Person) : List Person → Option Nat
  | [] => none
  | z :: rest =>
      match lastIdx b rest with
      | some k => some (k + 1)
      | none => if z = b then some 0 else none

/-- ranks[a][b], derived from the preference lists; KeyError when b does not
occur on a's list. -/
def ranksOf (prefs : Person → List Person) (a b : Person) : Except PyErr Nat :=
  match lastIdx b (prefs a) with
  | some k => .ok k
  | none => .error .keyError

/-! ### phase_1 (stable_roommates.py lines 145-209) -/

/-- The mutable state of one phase_1 invocation. `lastE`/`lastH` model the
Python locals `proposee`/`proposee_hold`, which persist across iterations of
the chain loop and are read while possibly stale (none = unbound, reading it
raises NameError). -/
structure P1St where
  holds : Person → Option Person
  curr : Person → Nat
  proposed : List Person
  lastE : Option Person
  lastH : Option (Option Person)

/-- The inner `while curr_holds[proposer] < len(...)` proposal walk: propose to
successive entries of the proposer's list until someone accepts (holds no one,
or ranks the proposer above their current hold) or the list is exhausted. -/
def innerLoop (prefs : Person → List Person) (rk : Person → Person → Except PyErr Nat)
    (P : Person) (st : P1St) : Nat → Except PyErr P1St
  | 0 => .error .fuelOut
  | fuel + 1 =>
      if h : st.curr P < (prefs P).length then
        let e := (prefs P).get ⟨st.curr P, h⟩
        let st1 : P1St :=
          { st with curr := fupd st.curr P (st.curr P + 1),
                    lastE := some e, lastH := some (st.holds e) }
        match st.holds e with
        | none => .ok { st1 with holds := fupd st1.holds e (some P) }
        | some h' => do
            let a ← rk e P
            let b ← rk e h'
            if a < b then .ok { st1 with holds := fupd st1.holds e (some P) }
            else innerLoop prefs rk P st1 fuel
      else .ok st

/-- The `while True` chain loop of phase_1 for one starting proposer: run the
inner walk, then (reading the possibly stale proposee) either record a fresh
proposal and stop, stop because the current proposer has exhausted their list,
or continue the chain with the displaced previous hold. -/
def chainLoop (prefs : Person → List Person) (rk : Person → Person → Except PyErr Nat) :
    Nat → Person → P1St → Except PyErr P1St
  | 0, _, _ => .error .fuelOut
  | fuel + 1, P, st => do
      let st1 ← innerLoop prefs rk P st ((prefs P).length + 1)
      match st1.lastE with
      | none => .error .nameError
      | some e =>
          if e ∈ st1.proposed then
            if (prefs P).length ≤ st1.curr P then .ok st1
            else
              match st1.lastH with
              | none => .error .nameError
              | some none => .error .keyError
              | some (some H) => chainLoop prefs rk fuel H st1
          else .ok { st1 with proposed := e :: st1.proposed }

/-- The outer `for person in people` loop of phase_1 (over the shuffled
order). -/
def phase1Go (prefs : Person → List Person) (rk : Person → Person → Except PyErr Nat)
    (fuel : Nat) : List Person → P1St → Except PyErr P1St
  | [], st => .ok st
  | P :: rest, st => do
      let st' ← chainLoop prefs rk fuel P st
      phase1Go prefs rk fuel rest st'

/-- phase_1: holds start empty; curr0 is the passed-in curr_holds dict (all
zeros on the initial invocation, 0/1 rotation flags when called from
phase_2_reduce); `order` is the shuffled proposal order. -/
def phase_1 (prefs : Person → List Person) (rk : Person → Person → Except PyErr Nat)
    (order : List Person) (curr0 : Person → Nat) (fuel : Nat) : Except PyErr P1St :=
  phase1Go prefs rk fuel order ⟨fun _ => none, curr0, [], none, none⟩

/-! ### phase_1_reduce (stable_roommates.py lines 212-254) -/

/-- The index loop over one proposee's list: on hitting the proposer, truncate
(keep it, drop the rest); otherwise pop z when z's current hold is ranked by z
strictly above the proposee (KeyError when z holds no one); otherwise keep z
and advance. -/
def reduceScan (rk : Person → Person → Except PyErr Nat) (holds : Person → Option Person)
    (y : Person) (x? : Option Person) : List Person → Except PyErr (List Person)
  | [] => .ok []
  | z :: rest =>
      if x? = some z then .ok [z]
      else
        match holds z with
        | none => .error .keyError
        | some hz => do
            let a ← rk z hz
            let b ← rk z y
            if a < b then reduceScan rk holds y x? rest
            else (fun l => z :: l) <$> reduceScan rk holds y x? rest

/-- phase_1_reduce: scan every proposee's list (dict iteration modelled
ascending over `people`; each iteration only rewrites that proposee's own
list and reads only the fixed `holds`/ranks, so the order is immaterial). -/
def phase_1_reduce (people : List Person) (prefs : Person → List Person)
    (rk : Person → Person → Except PyErr Nat) (holds : Person → Option Person) :
    Except PyErr (Person → List Person) :=
  people.foldlM
    (fun pf y => do
      let L ← reduceScan rk holds y (holds y) (pf y)
      .ok (fupd pf y L))
    prefs

/-! ### find_all_or_nothing_cycle (stable_roommates.py lines 257-295) -/

/-- `for person in preferences: if len > 1` — first person (ascending dict
order) whose current list still has more than one entry. -/
def findPerson (prefs : Person → List Person) : List Person → Option Person
  | [] => none
  | p :: rest => if 1 < (prefs p).length then some p else findPerson prefs rest

/-- The rotation-chasing loop: q_i is the second entry of cur's list, the next
cur is the last entry of q_i's list, until cur repeats inside p; the rotation
is the tail of p from that repetition on. -/
def cycleLoop (prefs : Person → List Person) :
    Nat → List Person → List Person → Person → Except PyErr (List Person)
  | 0, _, _, _ => .error .fuelOut
  | fuel + 1, p, q, cur =>
      if cur ∈ p then .ok (p.drop (p.indexOf cur))
      else do
        let qi ← pyGet (prefs cur) 1
        match (prefs qi).getLast? with
        | none => .error .indexError
        | some lastq => cycleLoop prefs fuel (p ++ [cur]) (q ++ [qi]) lastq

/-- find_all_or_nothing_cycle: none when no one has a list of length > 1. -/
def find_all_or_nothing_cycle (people : List Person) (prefs : Person → List Person)
    (fuel : Nat) : Except PyErr (Option (List Person)) :=
  match findPerson prefs people with
  | none => .ok none
  | some c => (cycleLoop prefs fuel [] [] c).map some

/-! ### phase_2_reduce (stable_roommates.py lines 298-329) -/

/-- The `while curr_cycle is not None` loop: set curr positions 1 for rotation
members and 0 for the rest, re-run phase_1 (with the next shuffled order
os k), reduce, and look for the next rotation. Returns the last holds (none
when the loop body never ran, mirroring the initial curr_holds = None). -/
def phase2Go (people : List Person) (rk : Person → Person → Except PyErr Nat)
    (os : Nat → List Person) (fuel : Nat) :
    Nat → Nat → (Person → List Person) → Option (Person → Option Person) →
    Option (List Person) → Except PyErr (Option (Person → Option Person))
  | _, _, _, acc, none => .ok acc
  | 0, _, _, _, some _ => .error .fuelOut
  | wfuel + 1, k, prefs2, _, some cyc => do
      let st ← phase_1 prefs2 rk (os k) (fun p => if p ∈ cyc then 1 else 0) fuel
      let prefs2' ← phase_1_reduce people prefs2 rk st.holds
      let cyc' ← find_all_or_nothing_cycle people prefs2' fuel
      phase2Go people rk os fuel wfuel (k + 1) prefs2' (some st.holds) cyc'

/-- phase_2_reduce (k = 1: the initial phase_1 used os 0). -/
def phase_2_reduce (people : List Person) (rk : Person → Person → Except PyErr Nat)
    (os : Nat → List Person) (fuel : Nat) (prefs : Person → List Person)
    (cyc : List Person) : Except PyErr (Option (Person → Option Person)) :=
  phase2Go people rk os fuel fuel 1 prefs none (some cyc)

/-! ### verify_matching / verify_stability (stable_roommates.py lines 424-486) -/

/-- verify_matching: the key set and value set must be equal (a None value
makes this fail, as None is never a key), and matching[matching[p]] = p for
every key p. -/
def verify_matching (people : List Person) (holds : Person → Option Person) : Bool :=
  let vals := people.map holds
  if people.all (fun p => (some p) ∈ vals) &&
      vals.all (fun v =>
        match v with
        | some q => q ∈ people
        | none => false) then
    people.all (fun p =>
      match holds p with
      | some q =>
          match holds q with
          | some r => p = r
          | none => false
      | none => false)
  else false

/-- Inner y-loop of verify_stability for a fixed x: skip y = x and
y = matching[x]; otherwise look up the four ranks (KeyError when a partner is
None or unranked, in the source's evaluation order) and report a blocking
pair with `.ok false`. -/
def verify_stability_inner (rk : Person → Person → Except PyErr Nat)
    (holds : Person → Option Person) (x : Person) : List Person → Except PyErr Bool
  | [] => .ok true
  | y :: ys =>
      if x = y ∨ holds x = some y then verify_stability_inner rk holds x ys
      else do
        let xpr ←
          match holds x with
          | none => .error .keyError
          | some xp => rk x xp
        let ypr ←
          match holds y with
          | none => .error .keyError
          | some yp => rk y yp
        let xyr ← rk x y
        let yxr ← rk y x
        if xyr < xpr ∧ yxr < ypr then .ok false
        else verify_stability_inner rk holds x ys

/-- Outer x-loop of verify_stability. -/
def verify_stability_go (rk : Person → Person → Except PyErr Nat)
    (holds : Person → Option Person) : List Person → List Person → Except PyErr Bool
  | [], _ => .ok true
  | x :: xs, people => do
      let b ← verify_stability_inner rk holds x people
      if b then verify_stability_go rk holds xs people else .ok false

/-- verify_stability: no blocking pair over all ordered pairs of keys. -/
def verify_stability (people : List Person) (holds : Person → Option Person)
    (rk : Person → Person → Except PyErr Nat) : Except PyErr Bool :=
  verify_stability_go rk holds people people

/-! ### Verification + phantom removal + format_output
(stable_roommates.py lines 67-93 / 112-142 and 489-511) -/

/-- The duplicated endgame of stable_roommates: verify the matching and its
stability (returning None on failure); when a phantom person N = len(holds)
was added, delete them and set their partner's entry to -1; then format_output
(out[key-1] = int(value), keys being 1..len after the phantom surgery). -/
def finalize (people : List Person) (pa : Bool) (holds : Person → Option Person)
    (rk : Person → Person → Except PyErr Nat) : Except PyErr (Option (List Int)) := do
  if verify_matching people holds then do
    let stable ← verify_stability people holds rk
    if stable then
      let N := people.length
      if pa then
        match holds N with
        | none => .error .typeError
        | some pm => do
            let out ← (List.range (if pm = N then N else N - 1)).mapM
              (fun i =>
                if i + 1 = pm then .ok (-1 : Int)
                else
                  match holds (i + 1) with
                  | some v => .ok ((v : Nat) : Int)
                  | none => .error .typeError)
            .ok (some out)
      else do
        let out ← (List.range N).mapM
          (fun i =>
            match holds (i + 1) with
            | some v => .ok ((v : Nat) : Int)
            | none => .error .typeError)
        .ok (some out)
    else .ok none
  else .ok none

/-! ### stable_roommates (stable_roommates.py lines 14-142) -/

/-- The complete algorithm. `os k` is the shuffled proposal order used by the
k-th internal phase_1 invocation; `fuel` bounds each modelled while loop.
Returns `.ok none` for "invalid input or no stable matching", `.ok (some m)`
for a found matching (entries are 1-indexed partner ids, -1 = unmatched). -/
def stable_roommates (input : PyVal) (os : Nat → List Person) (fuel : Nat) :
    Except PyErr (Option (List Int)) := do
  match ← validate_input input with
  | none => .ok none
  | some (pa, M) =>
      let N := M.length
      let people := List.range' 1 N
      let prefs := prefsOfMatrix M
      let rk := ranksOf prefs
      let st ← phase_1 prefs rk (os 0) (fun _ => 0) fuel
      if people.any (fun p => (st.holds p).isNone) then .ok none
      else do
        let red ← phase_1_reduce people prefs rk st.holds
        if people.all (fun p => (red p).length ≤ 1) then
          finalize people pa st.holds rk
        else do
          match ← find_all_or_nothing_cycle people red fuel with
          | none => .ok none
          | some cyc =>
              if cyc.length = 3 then .ok none
              else do
                match ← phase_2_reduce people rk os fuel red cyc with
                | none => .ok none
                | some h2 => finalize people pa h2 rk

/-! ### pair_research.py : adjust_undirected_graph and the combiner -/

/-- An undirected weighted edge [u, v, w] (a 3-element list in the source). -/
structure Edge where
  u : Nat
  v : Nat
  w : Int
  deriving DecidableEq, Repr

/-- adjust_undirected_graph (pair_research.py lines 13-37): force the weight
of every edge one of whose endpoints already has a partner (≠ -1) in
`matching` to -10000; the `or` short-circuits, so matching[v] is only read
when matching[u] = -1. -/
def adjust_undirected_graph (graph : List Edge) (matching : List Int) :
    Except PyErr (List Edge) :=
  graph.mapM (fun e => do
    let mu ← pyGet matching e.u
    if mu ≠ -1 then .ok { e with w := -10000 }
    else do
      let mv ← pyGet matching e.v
      .ok (if mv ≠ -1 then { e with w := -10000 } else e))

/-- The merge loop (pair_research.py lines 66-69): positions where the stable
result is -1 take the fallback value; mwm_result[i] is only read at such
positions (IndexError when the fallback list is too short there). -/
def mergeMatching : List Int → List Int → Except PyErr (List Int)
  | [], _ => .ok []
  | s :: ss, [] =>
      if s = -1 then .error .indexError
      else (mergeMatching ss []).map (fun l => s :: l)
  | s :: ss, m :: ms =>
      (mergeMatching ss ms).map (fun l => (if s = -1 then m else s) :: l)

/-- The combiner (pair_research.py lines 49-73), as a function of the stable
result, the fully-stable flag, the undirected graph and the external
maximum-weight-matching primitive (a black box): when fully stable the stable
result is the output; otherwise run the primitive on the adjusted graph and
merge it into the -1 positions. -/
def combine_matching (stable_result : List Int) (is_fully_stable : Bool)
    (graph : List Edge) (mwm : List Edge → List Int) : Except PyErr (List Int) :=
  if is_fully_stable then .ok stable_result
  else do
    let adj ← adjust_undirected_graph graph stable_result
    mergeMatching stable_result (mwm adj)

/-- Encoding of an int matrix as the PyVal handed to stable_roommates. -/
def encM (m : List (List Int)) : PyVal :=
  .list (m.map (fun r => .list (r.map .int)))

/-! ## Supporting lemmas -/

theorem exc_bind_ok {ε α β : Type} (a : α) (f : α → Except ε β) :
    (Except.ok a >>= f) = f a := rfl

theorem exc_bind_err {ε α β : Type} (e : ε) (f : α → Except ε β) :
    ((Except.error e : Except ε α) >>= f) = Except.error e := rfl

theorem exc_map_ok {ε α β : Type} (a : α) (f : α → β) :
    (f <$> (Except.ok a : Except ε α)) = Except.ok (f a) := rfl

theorem exc_map_err {ε α β : Type} (e : ε) (f : α → β) :
    (f <$> (Except.error e : Except ε α)) = Except.error e := rfl

theorem exc_bind_ok_inv {ε α β : Type} (e : Except ε α) (f : α → Except ε β)
    (b : β) (h : (e >>= f) = .ok b) : ∃ a, e = .ok a ∧ f a = .ok b := by
  cases e with
  | error err => cases h
  | ok a => exact ⟨a, rfl, h⟩

theorem pyGet_ok_of_lt {α : Type} (xs : List α) (i : Nat) (h : i < xs.length) :
    pyGet xs i = .ok (xs.get ⟨i, h⟩) := by
  unfold pyGet
  rw [List.get?_eq_get h]

/-- Behaviour of the combiner's merge loop, index by index. -/
theorem mergeMatching_spec (s : List Int) :
    ∀ m out, mergeMatching s m = .ok out →
      out.length = s.length ∧
      ∀ i (hi : i < s.length) (ho : i < out.length),
        (s.get ⟨i, hi⟩ ≠ -1 → out.get ⟨i, ho⟩ = s.get ⟨i, hi⟩) ∧
        (s.get ⟨i, hi⟩ = -1 →
          ∃ hm : i < m.length, out.get ⟨i, ho⟩ = m.get ⟨i, hm⟩) := by
  induction s with
  | nil =>
      intro m out h
      simp only [mergeMatching] at h
      cases h
      exact ⟨rfl, by intro i hi; exact absurd hi (by simp)⟩
  | cons a ss ih =>
      intro m out h
      cases m with
      | nil =>
          simp only [mergeMatching] at h
          by_cases ha : a = -1
          · simp [ha] at h
          · simp only [if_neg ha] at h
            cases ht : mergeMatching ss [] with
            | error e => rw [ht] at h; simp [Except.map] at h
            | ok t =>
                rw [ht] at h
                simp only [Except.map] at h
                cases h
                obtain ⟨hlen, hspec⟩ := ih [] t ht
                refine ⟨by simp [hlen], ?_⟩
                intro i hi ho
                match i with
                | 0 => exact ⟨fun _ => rfl, fun he => absurd he ha⟩
                | i + 1 =>
                    have hi' : i < ss.length := by simpa using hi
                    have ho' : i < t.length := by simpa using ho
                    obtain ⟨h1, h2⟩ := hspec i hi' ho'
                    constructor
                    · intro hne
                      simpa using h1 (by simpa using hne)
                    · intro he
                      obtain ⟨hm, _⟩ := h2 (by simpa using he)
                      exact absurd hm (by simp)
      | cons b ms =>
          simp only [mergeMatching] at h
          cases ht : mergeMatching ss ms with
          | error e => rw [ht] at h; simp [Except.map] at h
          | ok t =>
              rw [ht] at h
              simp only [Except.map] at h
              cases h
              obtain ⟨hlen, hspec⟩ := ih ms t ht
              refine ⟨by simp [hlen], ?_⟩
              intro i hi ho
              match i with
              | 0 =>
                  constructor
                  · intro hne
                    simp only [List.get]
                    simp only [List.get] at hne
                    simp [if_neg hne]
                  · intro he
                    refine ⟨by simp, ?_⟩
                    simp only [List.get] at he ⊢
                    simp [if_pos he]
              | i + 1 =>
                  have hi' : i < ss.length := by simpa using hi
                  have ho' : i < t.length := by simpa using ho
                  obtain ⟨h1, h2⟩ := hspec i hi' ho'
                  constructor
                  · intro hne
                    simpa using h1 (by simpa using hne)
                  · intro he
                    obtain ⟨hm, hv⟩ := h2 (by simpa using he)
                    refine ⟨by simpa using Nat.succ_lt_succ hm, ?_⟩
                    simpa using hv

/-! ## Claim C2 : the combiner output -/

/-- **C2**. If the stable-roommates result is flagged fully stable, the
combiner's output equals the stable result and the weighted-matching fallback
is never merged in (the output does not depend on the primitive at all);
otherwise the output has, at every index i, the stable entry when it is not
-1 and the entry of the maximum-weight matching of the adjusted graph when
the stable entry is -1. -/
theorem combine_matching_spec :
    (∀ (s : List Int) (g : List Edge) (mwm : List Edge → List Int),
        combine_matching s true g mwm = .ok s) ∧
    (∀ (s : List Int) (g : List Edge) (mwm : List Edge → List Int)
        (adj : List Edge) (out : List Int),
        adjust_undirected_graph g s = .ok adj →
        combine_matching s false g mwm = .ok out →
        out.length = s.length ∧
        ∀ i (hi : i < s.length) (ho : i < out.length),
          (s.get ⟨i, hi⟩ ≠ -1 → out.get ⟨i, ho⟩ = s.get ⟨i, hi⟩) ∧
          (s.get ⟨i, hi⟩ = -1 →
            ∃ hm : i < (mwm adj).length,
              out.get ⟨i, ho⟩ = (mwm adj).get ⟨i, hm⟩)) := by
  constructor
  · intro s g mwm
    rfl
  · intro s g mwm adj out hadj hc
    have hc' : mergeMatching s (mwm adj) = .ok out := by
      simpa [combine_matching, hadj, Except.bind] using hc
    exact mergeMatching_spec s (mwm adj) out hc'

/-- Witness for C2 at a concrete input: stable result [-1, 2] on the graph
with the single edge (0, 1, 5), fallback returning [1, 0]. -/
theorem combine_matching_spec_witness :
    ([1, 2] : List Int).length = ([-1, 2] : List Int).length ∧
    ∀ i (hi : i < ([-1, 2] : List Int).length) (ho : i < ([1, 2] : List Int).length),
      (([-1, 2] : List Int).get ⟨i, hi⟩ ≠ -1 →
        ([1, 2] : List Int).get ⟨i, ho⟩ = ([-1, 2] : List Int).get ⟨i, hi⟩) ∧
      (([-1, 2] : List Int).get ⟨i, hi⟩ = -1 →
        ∃ hm : i < ([1, 0] : List Int).length,
          ([1, 2] : List Int).get ⟨i, ho⟩ = ([1, 0] : List Int).get ⟨i, hm⟩) :=
  combine_matching_spec.2 [-1, 2] [⟨0, 1, 5⟩] (fun _ => [1, 0]) [⟨0, 1, -10000⟩] [1, 2]
    rfl rfl

/-! ## Claim C3 : adjust_undirected_graph -/

/-- **C3**. For a graph whose endpoints index into `matching`,
adjust_undirected_graph succeeds and returns the same edges in the same
order, with weight forced to -10000 exactly on edges one of whose endpoints
is matched (≠ -1), and the original weight kept exactly when both endpoints
are unmatched. -/
theorem adjust_edge_ok (matching : List Int) (e : Edge)
    (hu : e.u < matching.length) (hv : e.v < matching.length) :
    (do
      let mu ← pyGet matching e.u
      if mu ≠ -1 then Except.ok { e with w := -10000 }
      else do
        let mv ← pyGet matching e.v
        Except.ok (if mv ≠ -1 then { e with w := -10000 } else e) :
      Except PyErr Edge) =
    .ok (if matching.getD e.u 0 ≠ -1 ∨ matching.getD e.v 0 ≠ -1 then
      { e with w := -10000 } else e) := by
  have hgu : matching.getD e.u 0 = matching.get ⟨e.u, hu⟩ :=
    List.getD_eq_get matching 0 hu
  have hgv : matching.getD e.v 0 = matching.get ⟨e.v, hv⟩ :=
    List.getD_eq_get matching 0 hv
  rw [pyGet_ok_of_lt matching e.u hu, pyGet_ok_of_lt matching e.v hv, hgu, hgv]
  by_cases hmu : matching.get ⟨e.u, hu⟩ = -1 <;>
    by_cases hmv : matching.get ⟨e.v, hv⟩ = -1 <;>
      simp only [List.get_eq_getElem] at hmu hmv <;>
        simp [hmu, hmv, exc_bind_ok]

theorem adjust_undirected_graph_spec :
    ∀ (graph : List Edge) (matching : List Int),
      (∀ e ∈ graph, e.u < matching.length ∧ e.v < matching.length) →
      adjust_undirected_graph graph matching =
        .ok (graph.map (fun e =>
          if matching.getD e.u 0 ≠ -1 ∨ matching.getD e.v 0 ≠ -1 then
            { e with w := -10000 } else e)) := by
  intro graph matching hin
  induction graph with
  | nil => rfl
  | cons e rest ih =>
      obtain ⟨hu, hv⟩ := hin e (by simp)
      have ihr := ih (fun e' he' => hin e' (by simp [he']))
      unfold adjust_undirected_graph at ihr ⊢
      rw [List.mapM_cons, adjust_edge_ok matching e hu hv, ihr]
      rfl

/-- Witness for C3 at a concrete input: matching [-1, 2, -1] over edges
(0,1,7) and (0,2,9): the first edge touches matched participant 1 and is
forced to -10000, the second keeps its weight. -/
theorem adjust_undirected_graph_spec_witness :
    adjust_undirected_graph [⟨0, 1, 7⟩, ⟨0, 2, 9⟩] [-1, 2, -1] =
      .ok ([⟨0, 1, 7⟩, ⟨0, 2, 9⟩].map (fun e =>
        if ([-1, 2, -1] : List Int).getD e.u 0 ≠ -1 ∨
            ([-1, 2, -1] : List Int).getD e.v 0 ≠ -1 then
          { e with w := -10000 } else e)) :=
  adjust_undirected_graph_spec [⟨0, 1, 7⟩, ⟨0, 2, 9⟩] [-1, 2, -1] (by decide)

/-! ## Claim C10 : verify_matching accepts self-matched mappings -/

/-- **C10**. verify_matching returns true for any mapping whose key set
equals its value set and which satisfies matching[matching[p]] = p on every
key — including mappings that match a participant to themselves, as the
identity mapping on keys 1, 2, 3 shows; no check requires a partner to be a
different participant. -/
theorem verify_matching_allows_self_matching :
    (∀ (people : List Person) (holds : Person → Option Person),
      (∀ p ∈ people, some p ∈ people.map holds) →
      (∀ p ∈ people, ∃ q, holds p = some q ∧ q ∈ people) →
      (∀ p ∈ people, (holds p).bind holds = some p) →
      verify_matching people holds = true) ∧
    verify_matching [1, 2, 3] (fun p => some p) = true := by
  constructor
  · intro people holds h1 h2 h3
    unfold verify_matching
    rw [if_pos]
    · rw [List.all_eq_true]
      intro p hp
      obtain ⟨q, hq, hqp⟩ := h2 p hp
      have hb := h3 p hp
      rw [hq] at hb ⊢
      simp only [Option.bind] at hb
      cases hqq : holds q with
      | none => rw [hqq] at hb; cases hb
      | some r =>
          rw [hqq] at hb
          injection hb with hb'
          simp [hqq, hb']
    · rw [Bool.and_eq_true]
      constructor
      · rw [List.all_eq_true]
        intro p hp
        exact decide_eq_true (h1 p hp)
      · rw [List.all_eq_true]
        intro v hv
        obtain ⟨p, hp, rfl⟩ := List.mem_map.1 hv
        obtain ⟨q, hq, hqin⟩ := h2 p hp
        rw [hq]
        simpa using hqin
  · rfl

/-- Witness for C10: the identity mapping on keys 1, 2, 3 satisfies the
hypotheses and is accepted. -/
theorem verify_matching_allows_self_matching_witness :
    verify_matching [1, 2, 3] (fun p => some p) = true :=
  verify_matching_allows_self_matching.1 [1, 2, 3] (fun p => some p)
    (by decide) (by simp) (by decide)

/-! ## Claim C7 : verify_stability and blocking pairs -/

theorem vs_inner_false_iff (R : Person → Person → Nat) (m : Person → Person) (x : Person) :
    ∀ ys, (verify_stability_inner (fun a b => .ok (R a b)) (fun p => some (m p)) x ys
        = .ok false ↔
      ∃ y ∈ ys, ¬(x = y ∨ m x = y) ∧ R x y < R x (m x) ∧ R y x < R y (m y)) := by
  intro ys
  induction ys with
  | nil => simp [verify_stability_inner]
  | cons y ys ih =>
      unfold verify_stability_inner
      simp only [Option.some.injEq]
      by_cases hskip : x = y ∨ m x = y
      · rw [if_pos hskip]
        rw [ih]
        constructor
        · rintro ⟨z, hz, hc⟩
          exact ⟨z, by simp [hz], hc⟩
        · rintro ⟨z, hz, hc⟩
          rcases List.mem_cons.1 hz with rfl | hz'
          · exact absurd hskip hc.1
          · exact ⟨z, hz', hc⟩
      · rw [if_neg hskip]
        show (if R x y < R x (m x) ∧ R y x < R y (m y) then Except.ok false
          else verify_stability_inner (fun a b => .ok (R a b)) (fun p => some (m p)) x ys)
          = .ok false ↔ _
        by_cases hb : R x y < R x (m x) ∧ R y x < R y (m y)
        · rw [if_pos hb]
          simp only [true_iff]
          exact ⟨y, by simp, hskip, hb⟩
        · rw [if_neg hb]
          rw [ih]
          constructor
          · rintro ⟨z, hz, hc⟩
            exact ⟨z, by simp [hz], hc⟩
          · rintro ⟨z, hz, hc⟩
            rcases List.mem_cons.1 hz with rfl | hz'
            · exact absurd hc.2 hb
            · exact ⟨z, hz', hc⟩

theorem vs_inner_total (R : Person → Person → Nat) (m : Person → Person) (x : Person) :
    ∀ ys, ∃ b, verify_stability_inner (fun a b => .ok (R a b)) (fun p => some (m p)) x ys
      = .ok b := by
  intro ys
  induction ys with
  | nil => exact ⟨true, rfl⟩
  | cons y ys ih =>
      obtain ⟨b, hbi⟩ := ih
      unfold verify_stability_inner
      by_cases hskip : x = y ∨ (some (m x) : Option Person) = some y
      · rw [if_pos hskip]
        exact ⟨b, hbi⟩
      · rw [if_neg hskip]
        by_cases hb : R x y < R x (m x) ∧ R y x < R y (m y)
        · refine ⟨false, ?_⟩
          show (if R x y < R x (m x) ∧ R y x < R y (m y) then Except.ok false
            else verify_stability_inner (fun a b => .ok (R a b)) (fun p => some (m p)) x ys)
            = .ok false
          rw [if_pos hb]
        · refine ⟨b, ?_⟩
          show (if R x y < R x (m x) ∧ R y x < R y (m y) then Except.ok false
            else verify_stability_inner (fun a b => .ok (R a b)) (fun p => some (m p)) x ys)
            = .ok b
          rw [if_neg hb]
          exact hbi

theorem vs_go_false_iff (R : Person → Person → Nat) (m : Person → Person)
    (people : List Person) :
    ∀ xs, (verify_stability_go (fun a b => .ok (R a b)) (fun p => some (m p)) xs people
        = .ok false ↔
      ∃ x ∈ xs, ∃ y ∈ people, ¬(x = y ∨ m x = y) ∧
        R x y < R x (m x) ∧ R y x < R y (m y)) := by
  intro xs
  induction xs with
  | nil => simp [verify_stability_go]
  | cons x xs ih =>
      unfold verify_stability_go
      obtain ⟨b, hbi⟩ := vs_inner_total R m x people
      rw [hbi, exc_bind_ok]
      cases b with
      | true =>
          have hnb : ¬ ∃ y ∈ people, ¬(x = y ∨ m x = y) ∧
              R x y < R x (m x) ∧ R y x < R y (m y) := by
            intro hex
            rw [← vs_inner_false_iff R m x people] at hex
            rw [hbi] at hex
            cases hex
          simp only [if_true]
          rw [ih]
          constructor
          · rintro ⟨z, hz, hc⟩
            exact ⟨z, by simp [hz], hc⟩
          · rintro ⟨z, hz, hc⟩
            rcases List.mem_cons.1 hz with rfl | hz'
            · exact absurd hc hnb
            · exact ⟨z, hz', hc⟩
      | false =>
          have hex := (vs_inner_false_iff R m x people).1 hbi
          constructor
          · intro _
            obtain ⟨y, hy, hc⟩ := hex
            exact ⟨x, by simp, y, hy, hc⟩
          · intro _
            rfl

theorem vs_go_total (R : Person → Person → Nat) (m : Person → Person)
    (people : List Person) :
    ∀ xs, ∃ b, verify_stability_go (fun a b => .ok (R a b)) (fun p => some (m p)) xs people
      = .ok b := by
  intro xs
  induction xs with
  | nil => exact ⟨true, rfl⟩
  | cons x xs ih =>
      obtain ⟨b, hbi⟩ := vs_inner_total R m x people
      obtain ⟨c, hc⟩ := ih
      unfold verify_stability_go
      rw [hbi, exc_bind_ok]
      cases b with
      | true => exact ⟨c, by simpa using hc⟩
      | false => exact ⟨false, by simp⟩

/-- **C7**. For a matching that is a symmetric fixed-point-free bijection on
the participants and any total rank table, verify_stability returns false
exactly when some two distinct participants, not matched to each other, each
rank the other strictly above their current partner; otherwise it returns
true. -/
theorem verify_stability_iff_blocking_pair :
    ∀ (people : List Person) (R : Person → Person → Nat) (m : Person → Person),
      (∀ p ∈ people, m p ∈ people ∧ m (m p) = p ∧ m p ≠ p) →
      (verify_stability people (fun p => some (m p)) (fun a b => .ok (R a b)) = .ok false ↔
        ∃ x ∈ people, ∃ y ∈ people, x ≠ y ∧ m x ≠ y ∧
          R x y < R x (m x) ∧ R y x < R y (m y)) ∧
      (verify_stability people (fun p => some (m p)) (fun a b => .ok (R a b)) = .ok true ↔
        ¬ ∃ x ∈ people, ∃ y ∈ people, x ≠ y ∧ m x ≠ y ∧
          R x y < R x (m x) ∧ R y x < R y (m y)) := by
  intro people R m _
  have hmain : verify_stability people (fun p => some (m p)) (fun a b => .ok (R a b))
      = .ok false ↔
      ∃ x ∈ people, ∃ y ∈ people, x ≠ y ∧ m x ≠ y ∧
        R x y < R x (m x) ∧ R y x < R y (m y) := by
    rw [verify_stability, vs_go_false_iff]
    constructor
    · rintro ⟨x, hx, y, hy, hs, h1, h2⟩
      exact ⟨x, hx, y, hy, fun h => hs (Or.inl h), fun h => hs (Or.inr h), h1, h2⟩
    · rintro ⟨x, hx, y, hy, hne, hnm, h1, h2⟩
      exact ⟨x, hx, y, hy, by rintro (h | h); exacts [hne h, hnm h], h1, h2⟩
  refine ⟨hmain, ?_⟩
  obtain ⟨b, hbtot⟩ := vs_go_total R m people people
  have hbtot' : verify_stability people (fun p => some (m p)) (fun a b => .ok (R a b))
      = .ok b := hbtot
  cases b with
  | true =>
      rw [hbtot']
      simp only [Except.ok.injEq, true_iff]
      intro hex
      have := hmain.2 hex
      rw [hbtot'] at this
      cases this
  | false =>
      rw [hbtot']
      have hex := hmain.1 hbtot'
      constructor
      · intro h
        cases h
      · intro h
        exact absurd hex h

/-- Witness for C7: participants 1↔2, 3↔4 with a rank table under which 2 and
3 strictly prefer each other to their partners; verify_stability reports
instability. -/
theorem verify_stability_iff_blocking_pair_witness :
    verify_stability [1, 2, 3, 4]
      (fun p => some (if p = 1 then 2 else if p = 2 then 1 else if p = 3 then 4 else 3))
      (fun a b => .ok (if (a = 2 ∧ b = 3) ∨ (a = 3 ∧ b = 2) then 0 else 1))
      = .ok false :=
  (verify_stability_iff_blocking_pair [1, 2, 3, 4]
      (fun a b => if (a = 2 ∧ b = 3) ∨ (a = 3 ∧ b = 2) then 0 else 1)
      (fun p => if p = 1 then 2 else if p = 2 then 1 else if p = 3 then 4 else 3)
      (by decide)).1.2
    ⟨2, by decide, 3, by decide, by decide, by decide, by decide, by decide⟩

/-! ## Claim C4 : validation of malformed input -/

/-- **C4** (code bug). The claim says stable_roommates returns the invalid
signal None, without raising, whenever the input is not a (rectangular) list
of lists. But validate_input computes len(preference_matrix) on line 354
before its `type(...) is not list` check on line 360, so a non-sized input
such as the integer 5 raises TypeError instead: the modelled run aborts with
a TypeError rather than returning None. -/
theorem stable_roommates_typeerror_on_int_input :
    stable_roommates (.int 5) (fun _ => []) 100 = .error .typeError := rfl

/-! ## Claim C9 : the 2-participant fixture -/

/-- **C9**. On the instance [[2],[1]], for every proposal order,
stable_roommates pairs participant 0 with participant 1: it returns the list
[2, 1] whose entries are 1-indexed partner ids (participant 0's partner is
person 2, i.e. participant 1, and participant 1's partner is person 1, i.e.
participant 0). -/
theorem two_person_instance_matches :
    ∀ os : Nat → List Person, (os 0).Perm [1, 2] →
      stable_roommates (encM [[2], [1]]) os 100 = .ok (some [2, 1]) := by
  intro os hperm
  have h2 : os 0 = [1, 2] ∨ os 0 = [2, 1] := by
    have hlen : (os 0).length = 2 := hperm.length_eq
    have hm1 : 1 ∈ os 0 := hperm.mem_iff.2 (by simp)
    match hos : os 0 with
    | [a, b] =>
        rw [hos] at hperm hm1
        have hb : a = 1 ∨ a = 2 := by
          have := hperm.mem_iff.1 (show a ∈ [a, b] by simp)
          simpa using this
        have hc : b = 1 ∨ b = 2 := by
          have := hperm.mem_iff.1 (show b ∈ [a, b] by simp)
          simpa using this
        rcases hb with rfl | rfl
        · rcases hc with rfl | rfl
          · exact absurd hperm (by decide)
          · left; rfl
        · rcases hc with rfl | rfl
          · right; rfl
          · exact absurd hperm (by decide)
    | [] => rw [hos] at hlen; cases hlen
    | [a] => rw [hos] at hlen; cases hlen
    | a :: b :: c :: t => rw [hos] at hlen; simp at hlen
  rcases h2 with h | h <;>
  · unfold stable_roommates
    rw [h]
    rfl

/-- Witness for C9 at the ascending order. -/
theorem two_person_instance_matches_witness :
    stable_roommates (encM [[2], [1]]) (fun _ => [1, 2]) 100 = .ok (some [2, 1]) :=
  two_person_instance_matches (fun _ => [1, 2]) (by decide)

/-! ## Claim C8 : the phase-1 reduction rules -/

/-- Original preference matrix of a 6-participant run in which, at the second
phase-2 iteration, the reduction is applied to holds for which the claim's
rule (ii) contradicts the truncation rule (found by search; the proposal
orders are 1,6,4,2,3,5 for phase 1 and then ascending). -/
def c8Matrix : List (List Int) :=
  [[6, 4, 2, 3, 5], [3, 5, 4, 6, 1], [5, 1, 4, 2, 6],
   [5, 6, 2, 3, 1], [1, 3, 4, 2, 6], [2, 4, 5, 3, 1]]

/-- The rank table of that run (derived from the full preference lists). -/
def c8rk : Person → Person → Except PyErr Nat :=
  ranksOf (prefsOfMatrix c8Matrix)

/-- The reduced preference lists handed to phase_1_reduce at that moment. -/
def c8prefs : Person → List Person := fun p =>
  if p = 1 then [3, 5] else if p = 2 then [4, 6] else if p = 3 then [5, 1]
  else if p = 4 then [6, 2] else if p = 5 then [1, 3] else if p = 6 then [2, 4]
  else []

/-- The holds handed to phase_1_reduce at that moment. -/
def c8holds : Person → Option Person := fun p =>
  if p = 1 then some 3 else if p = 2 then some 6 else if p = 3 then some 5
  else if p = 4 then some 2 else if p = 5 then some 1 else if p = 6 then some 4
  else none

/-- **C8 counterexample**. Participant y = 1 holds a proposal from x = 3, and
x = 3's own current hold (5) is ranked by 3 strictly better (rank 0) than
y = 1 (rank 1) — so the claim's rule (ii) demands that 3 be removed from 1's
list. The code nevertheless returns [3] as 1's reduced list: the proposer is
caught by the truncation branch first and is never subject to rule (ii), so a
reduced list does retain an entry that rule (ii) would remove. -/
theorem phase_1_reduce_keeps_proposer_counterexample :
    c8holds 1 = some 3 ∧ c8holds 3 = some 5 ∧
    c8rk 3 5 = .ok 0 ∧ c8rk 3 1 = .ok 1 ∧
    (phase_1_reduce [1, 2, 3, 4, 5, 6] c8prefs c8rk c8holds).map (fun f => f 1)
      = .ok [3] :=
  ⟨rfl, rfl, rfl, rfl, rfl⟩

/-- Prefix of a list up to and including the first occurrence of x. -/
def takeThrough (x : Person) : List Person → List Person
  | [] => []
  | z :: rest => if z = x then [z] else z :: takeThrough x rest

theorem reduceScan_eq_filter (R : Person → Person → Nat) (H : Person → Person)
    (y x : Person) :
    ∀ L, reduceScan (fun a b => .ok (R a b)) (fun p => some (H p)) y (some x) L =
      .ok ((takeThrough x L).filter (fun z => z = x ∨ ¬ R z (H z) < R z y)) := by
  intro L
  induction L with
  | nil => rfl
  | cons z rest ih =>
      by_cases hz : z = x
      · subst hz
        unfold reduceScan
        rw [if_pos rfl]
        simp [takeThrough]
      · have hz' : ¬ ((some x : Option Person) = some z) := by
          intro hcontr
          injection hcontr with hcontr'
          exact hz hcontr'.symm
        have hstep : reduceScan (fun a b => .ok (R a b)) (fun p => some (H p)) y
            (some x) (z :: rest) =
            (if R z (H z) < R z y then
              reduceScan (fun a b => .ok (R a b)) (fun p => some (H p)) y (some x) rest
            else (fun l => z :: l) <$>
              reduceScan (fun a b => .ok (R a b)) (fun p => some (H p)) y (some x) rest) := by
          conv_lhs => unfold reduceScan
          rw [if_neg hz']
          rfl
        rw [hstep]
        by_cases hlt : R z (H z) < R z y
        · rw [if_pos hlt, ih]
          simp [takeThrough, List.filter_cons, hz, hlt]
        · rw [if_neg hlt, ih, exc_map_ok]
          simp [takeThrough, List.filter_cons, hz, hlt, Nat.le_of_not_lt hlt]

theorem phase_1_reduce_total_apply (R : Person → Person → Nat) (H : Person → Person) :
    ∀ (people : List Person) (pf : Person → List Person), people.Nodup →
      ∃ red, phase_1_reduce people pf (fun a b => .ok (R a b)) (fun p => some (H p))
          = .ok red ∧
        (∀ y ∈ people,
          red y = (takeThrough (H y) (pf y)).filter
            (fun z => z = H y ∨ ¬ R z (H z) < R z y)) ∧
        (∀ y, y ∉ people → red y = pf y) := by
  intro people
  induction people with
  | nil =>
      intro pf _
      exact ⟨pf, rfl, by simp, fun y _ => rfl⟩
  | cons p rest ih =>
      intro pf hnd
      have hnd' : rest.Nodup := (List.nodup_cons.1 hnd).2
      have hpr : p ∉ rest := (List.nodup_cons.1 hnd).1
      obtain ⟨red, hred, hin, hout⟩ :=
        ih (fupd pf p ((takeThrough (H p) (pf p)).filter
          (fun z => z = H p ∨ ¬ R z (H z) < R z p))) hnd'
      refine ⟨red, ?_, ?_, ?_⟩
      · unfold phase_1_reduce at hred ⊢
        rw [List.foldlM_cons]
        show ((do
            let L ← reduceScan (fun a b => Except.ok (R a b)) (fun q => some (H q)) p
              (some (H p)) (pf p)
            Except.ok (fupd pf p L)) >>= fun s =>
            List.foldlM (fun pf y => do
              let L ← reduceScan (fun a b => Except.ok (R a b)) (fun q => some (H q)) y
                ((fun q => some (H q)) y) (pf y)
              Except.ok (fupd pf y L)) s rest) = Except.ok red
        rw [reduceScan_eq_filter R H p (H p) (pf p), exc_bind_ok, exc_bind_ok]
        exact hred
      · intro y hy
        rcases List.mem_cons.1 hy with rfl | hy'
        · rw [hout y hpr]
          simp [fupd]
        · have hyp : y ≠ p := fun h => hpr (h ▸ hy')
          rw [hin y hy']
          simp [fupd, hyp]
      · intro y hy
        have hyp : y ≠ p := fun h => hy (by simp [h])
        have hyr : y ∉ rest := fun h => hy (by simp [h])
        rw [hout y hyr]
        simp [fupd, hyp]

theorem takeThrough_filter_getLast (x : Person) (p : Person → Bool) (hp : p x = true) :
    ∀ L : List Person, x ∈ L → ((takeThrough x L).filter p).getLast? = some x := by
  intro L
  induction L with
  | nil => intro h; cases h
  | cons z rest ih =>
      intro hmem
      by_cases hz : z = x
      · subst hz
        unfold takeThrough
        rw [if_pos rfl]
        simp [List.filter, hp]
      · have hmem' : x ∈ rest := by
          rcases List.mem_cons.1 hmem with h | h
          · exact absurd h.symm hz
          · exact h
        unfold takeThrough
        rw [if_neg hz, List.filter_cons]
        by_cases hpz : p z = true
        · rw [if_pos hpz]
          have hlast := ih hmem'
          cases hfc : (takeThrough x rest).filter p with
          | nil => rw [hfc] at hlast; cases hlast
          | cons w ws =>
              rw [hfc] at hlast
              rw [List.getLast?_cons_cons]
              exact hlast
        · rw [if_neg hpz]
          exact ih hmem'

/-- **C8** (amended). After phase_1_reduce with a total rank table and
all-some holds: for every participant y (holding a proposal from x = H y),
y's reduced list is the prefix of y's list up to and including the first
occurrence of x, from which every participant z *other than x itself* whose
current hold z ranks strictly better than y has been removed — exhaustively,
but with the proposer x exempted from rule (ii): x is always kept (and is the
last entry whenever it occurs on y's list), even when x's own hold outranks
y. -/
theorem phase_1_reduce_amended_spec :
    ∀ (people : List Person) (prefs : Person → List Person)
      (R : Person → Person → Nat) (H : Person → Person) (red : Person → List Person),
      people.Nodup →
      phase_1_reduce people prefs (fun a b => .ok (R a b)) (fun p => some (H p))
        = .ok red →
      ∀ y ∈ people,
        red y = (takeThrough (H y) (prefs y)).filter
          (fun z => z = H y ∨ ¬ R z (H z) < R z y) ∧
        (H y ∈ prefs y → (red y).getLast? = some (H y)) := by
  intro people prefs R H red hnd hred y hy
  obtain ⟨red', hred', hin, _⟩ := phase_1_reduce_total_apply R H people prefs hnd
  rw [hred] at hred'
  injection hred' with heq
  subst heq
  refine ⟨hin y hy, ?_⟩
  intro hmem
  rw [hin y hy]
  exact takeThrough_filter_getLast (H y)
    (fun z => z = H y ∨ ¬ R z (H z) < R z y) (by simp) (prefs y) hmem

/-- Data for the C8 amended-claim witness: a 2-person reduction. -/
def c8wPrefs : Person → List Person := fun p =>
  if p = 1 then [2] else if p = 2 then [1] else []

/-- Holds for the witness: 1 and 2 hold each other. -/
def c8wH : Person → Person := fun p => if p = 1 then 2 else 1

/-- A trivial total rank table for the witness. -/
def c8wR : Person → Person → Nat := fun _ _ => 0

/-- Witness for the amended C8 at participant 1 of a concrete instance. -/
theorem phase_1_reduce_amended_spec_witness :
    (fupd (fupd c8wPrefs 1 [2]) 2 [1]) 1 =
      (takeThrough (c8wH 1) (c8wPrefs 1)).filter
        (fun z => z = c8wH 1 ∨ ¬ c8wR z (c8wH z) < c8wR z 1) ∧
    (c8wH 1 ∈ c8wPrefs 1 →
      ((fupd (fupd c8wPrefs 1 [2]) 2 [1]) 1).getLast? = some (c8wH 1)) :=
  phase_1_reduce_amended_spec [1, 2] c8wPrefs c8wR c8wH
    (fupd (fupd c8wPrefs 1 [2]) 2 [1]) (by decide) rfl 1 (by decide)

/-! ## Claim C6 : no rotation / length-3 rotation means no stable matching -/

/-- **C6**. When the phase-1 reduced table still has a list of length > 1 and
the rotation finder returns either no rotation or one of exactly 3
participants, stable_roommates returns None (no stable matching). -/
theorem phase2_cycle3_returns_none :
    ∀ (input : PyVal) (os : Nat → List Person) (fuel : Nat)
      (pa : Bool) (M : List (List Int)) (st : P1St) (red : Person → List Person)
      (cyc? : Option (List Person)),
      validate_input input = .ok (some (pa, M)) →
      phase_1 (prefsOfMatrix M) (ranksOf (prefsOfMatrix M)) (os 0) (fun _ => 0) fuel
        = .ok st →
      (∀ p ∈ List.range' 1 M.length, (st.holds p).isSome) →
      phase_1_reduce (List.range' 1 M.length) (prefsOfMatrix M)
        (ranksOf (prefsOfMatrix M)) st.holds = .ok red →
      (∃ p ∈ List.range' 1 M.length, 1 < (red p).length) →
      find_all_or_nothing_cycle (List.range' 1 M.length) red fuel = .ok cyc? →
      (cyc? = none ∨ ∃ c, cyc? = some c ∧ c.length = 3) →
      stable_roommates input os fuel = .ok none := by
  intro input os fuel pa M st red cyc? hval hp1 hall hred hex hcyc hc3
  have hany : (List.range' 1 M.length).any (fun p => (st.holds p).isNone) = false := by
    rw [List.any_eq_false]
    intro p hp
    have hs := hall p hp
    cases hsp : st.holds p with
    | none => rw [hsp] at hs; cases hs
    | some q => simp [hsp]
  have hhalt : (List.range' 1 M.length).all (fun p => (red p).length ≤ 1) = false := by
    rw [List.all_eq_false]
    obtain ⟨p, hp, hlen⟩ := hex
    exact ⟨p, hp, by simpa using hlen⟩
  unfold stable_roommates
  rw [hval, exc_bind_ok]
  simp only [hp1, exc_bind_ok, hany, hred, hhalt, hcyc]
  rcases hc3 with rfl | ⟨c, rfl, hc⟩
  · simp
  · simp [hc]

/-- The 6-participant fixture from Irving's paper that has no stable
matching; with the ascending proposal order, stable_roommates discovers a
rotation of exactly 3 participants and gives up. -/
def c6M : List (List Int) :=
  [[2, 6, 4, 3, 5], [3, 5, 1, 6, 4], [1, 6, 2, 5, 4],
   [5, 2, 3, 6, 1], [6, 1, 3, 4, 2], [4, 2, 5, 1, 3]]

/-- The phase-1 state of that run (ascending order, extracted from the
computation itself). -/
def c6st : P1St :=
  match phase_1 (prefsOfMatrix c6M) (ranksOf (prefsOfMatrix c6M))
      [1, 2, 3, 4, 5, 6] (fun _ => 0) 1000 with
  | .ok st => st
  | .error _ => ⟨fun _ => none, fun _ => 0, [], none, none⟩

/-- The phase-1-reduced table of that run. -/
def c6red : Person → List Person :=
  match phase_1_reduce (List.range' 1 c6M.length) (prefsOfMatrix c6M)
      (ranksOf (prefsOfMatrix c6M)) c6st.holds with
  | .ok r => r
  | .error _ => fun _ => []

/-- The rotation found in that run. -/
def c6cyc : List Person :=
  match find_all_or_nothing_cycle (List.range' 1 c6M.length) c6red 1000 with
  | .ok (some c) => c
  | _ => []

/-- Witness for C6: the fixture run hits the length-3 rotation branch, and
stable_roommates returns None. -/
theorem phase2_cycle3_returns_none_witness :
    stable_roommates (encM c6M) (fun _ => [1, 2, 3, 4, 5, 6]) 1000 = .ok none :=
  phase2_cycle3_returns_none (encM c6M) (fun _ => [1, 2, 3, 4, 5, 6]) 1000
    false c6M c6st c6red (some c6cyc) rfl rfl (by decide) rfl
    ⟨1, by decide, by decide⟩ rfl (Or.inr ⟨c6cyc, rfl, by decide⟩)

/-! ## Claim C1 : returned matchings are verified -/

theorem mapM_ok_get {α β : Type} (f : α → Except PyErr β) :
    ∀ (l : List α) (out : List β), l.mapM f = .ok out →
      out.length = l.length ∧
      ∀ i (hi : i < l.length) (ho : i < out.length),
        f (l.get ⟨i, hi⟩) = .ok (out.get ⟨i, ho⟩) := by
  intro l
  induction l with
  | nil =>
      intro out h
      cases h
      exact ⟨rfl, fun i hi => absurd hi (by simp)⟩
  | cons a rest ih =>
      intro out h
      rw [List.mapM_cons] at h
      cases hfa : f a with
      | error e => rw [hfa, exc_bind_err] at h; cases h
      | ok b =>
          rw [hfa, exc_bind_ok] at h
          cases hrest : rest.mapM f with
          | error e => rw [hrest, exc_bind_err] at h; cases h
          | ok bs =>
              rw [hrest, exc_bind_ok] at h
              cases h
              obtain ⟨hlen, hget⟩ := ih bs hrest
              refine ⟨by simp [hlen], ?_⟩
              intro i hi ho
              match i with
              | 0 => exact hfa
              | i + 1 =>
                  have hi' : i < rest.length := by simpa using hi
                  have ho' : i < bs.length := by simpa using ho
                  simpa using hget i hi' ho'

/-- Helper: a successful mapM over a range is the literal map when every body
is ok. -/
theorem mapM_eq_map {α β : Type} (f : α → Except PyErr β) (g : α → β) :
    ∀ l : List α, (∀ x ∈ l, f x = .ok (g x)) → l.mapM f = .ok (l.map g) := by
  intro l
  induction l with
  | nil => intro _; rfl
  | cons a rest ih =>
      intro hall
      rw [List.mapM_cons, hall a (by simp), exc_bind_ok,
        ih (fun x hx => hall x (by simp [hx])), exc_bind_ok]
      rfl

/-- What a successful finalize means: both verifications passed, and the
output is the formatted holds dict, with the phantom participant (when one
was added) deleted and its partner mapped to -1. -/
theorem finalize_ok_spec :
    ∀ (people : List Person) (pa : Bool) (holds : Person → Option Person)
      (rk : Person → Person → Except PyErr Nat) (out : List Int),
      finalize people pa holds rk = .ok (some out) →
      verify_matching people holds = true ∧
      verify_stability people holds rk = .ok true ∧
      ((pa = false ∧ out = (List.range people.length).map
          (fun i => ((holds (i + 1)).getD 0 : Int))) ∨
       (pa = true ∧ ∃ pm : Nat, holds people.length = some pm ∧
          out = (List.range (if pm = people.length then people.length
            else people.length - 1)).map
            (fun i => if i + 1 = pm then (-1 : Int)
              else ((holds (i + 1)).getD 0 : Int)))) := by
  intro people pa holds rk out h
  unfold finalize at h
  by_cases hvm : verify_matching people holds
  · rw [if_pos hvm] at h
    cases hvs : verify_stability people holds rk with
    | error e => rw [hvs, exc_bind_err] at h; cases h
    | ok b =>
        rw [hvs, exc_bind_ok] at h
        cases b with
        | false => simp at h
        | true =>
            refine ⟨hvm, rfl, ?_⟩
            rw [if_pos rfl] at h
            cases pa with
            | false =>
                left
                refine ⟨rfl, ?_⟩
                simp only [Bool.false_eq_true, if_false] at h
                obtain ⟨o, hm, hko⟩ := exc_bind_ok_inv _ _ _ h
                injection hko with hk
                injection hk with hk2
                subst hk2
                obtain ⟨hlen, hget⟩ := mapM_ok_get _ _ _ hm
                apply List.ext_get (by simp [hlen])
                intro i h1 h2
                have hr : i < (List.range people.length).length := by
                  rw [← hlen]; exact h1
                have hfi := hget i hr h1
                rw [List.get_range] at hfi
                rw [List.get_map, List.get_range]
                cases hh : holds (i + 1) with
                | none => rw [hh] at hfi; cases hfi
                | some v =>
                    rw [hh] at hfi
                    injection hfi with hv
                    simp only [hh, Option.getD_some]
                    exact hv.symm
            | true =>
                right
                refine ⟨rfl, ?_⟩
                simp only [if_true] at h
                cases hpm : holds people.length with
                | none => rw [hpm] at h; cases h
                | some pm =>
                    rw [hpm] at h
                    refine ⟨pm, rfl, ?_⟩
                    obtain ⟨o, hm, hko⟩ := exc_bind_ok_inv _ _ _ h
                    injection hko with hk
                    injection hk with hk2
                    subst hk2
                    obtain ⟨hlen, hget⟩ := mapM_ok_get _ _ _ hm
                    apply List.ext_get (by simp [hlen])
                    intro i h1 h2
                    have hr : i < (List.range (if pm = people.length then
                        people.length else people.length - 1)).length := by
                      rw [← hlen]; exact h1
                    have hfi := hget i hr h1
                    rw [List.get_range] at hfi
                    rw [List.get_map, List.get_range]
                    by_cases hip : i + 1 = pm
                    · rw [if_pos hip] at hfi ⊢
                      injection hfi with hv
                      exact hv.symm
                    · rw [if_neg hip] at hfi ⊢
                      cases hh : holds (i + 1) with
                      | none => rw [hh] at hfi; cases hfi
                      | some v =>
                          rw [hh] at hfi
                          injection hfi with hv
                          simp only [hh, Option.getD_some]
                          exact hv.symm
  · rw [if_neg hvm] at h
    cases h

theorem checkEntries_mem (n i : Nat) :
    ∀ (entries : List PyVal) (js : List Int), checkEntries n i entries = some js →
      ∀ j ∈ js, 1 ≤ j ∧ j ≤ (n : Int) ∧ j ≠ (i : Int) + 1 := by
  intro entries
  induction entries with
  | nil =>
      intro js h j hj
      cases h
      cases hj
  | cons e rest ih =>
      intro js h j hj
      cases e with
      | int v =>
          unfold checkEntries at h
          by_cases hc : v < 1 ∨ (n : Int) < v ∨ v = (i : Int) + 1
          · rw [if_pos hc] at h; cases h
          · rw [if_neg hc] at h
            cases hrest : checkEntries n i rest with
            | none => rw [hrest] at h; cases h
            | some js' =>
                rw [hrest] at h
                simp only [Option.map] at h
                cases h
                rcases List.mem_cons.1 hj with rfl | hj'
                · push_neg at hc
                  exact ⟨by omega, by omega, hc.2.2⟩
                · exact ih js' hrest j hj'
      | str s => cases h
      | list l => cases h

theorem checkRows_spec (n : Nat) :
    ∀ (rows : List PyVal) (i : Nat) (mat : List (List Int)),
      checkRows n i rows = some mat →
      mat.length = rows.length ∧
      ∀ k (hk : k < mat.length), ∀ j ∈ mat.get ⟨k, hk⟩,
        1 ≤ j ∧ j ≤ (n : Int) ∧ j ≠ (i : Int) + (k : Int) + 1 := by
  intro rows
  induction rows with
  | nil =>
      intro i mat h
      cases h
      exact ⟨rfl, fun k hk => absurd hk (by simp)⟩
  | cons r rest ih =>
      intro i mat h
      cases r with
      | int v => cases h
      | str s => cases h
      | list entries =>
          unfold checkRows at h
          by_cases hl : n - 1 < entries.length
          · rw [if_pos hl] at h; cases h
          · rw [if_neg hl] at h
            cases hce : checkEntries n i entries with
            | none => rw [hce] at h; cases h
            | some js =>
                rw [hce] at h
                cases hcr : checkRows n (i + 1) rest with
                | none => rw [hcr] at h; cases h
                | some rs =>
                    rw [hcr] at h
                    cases h
                    obtain ⟨hlen, hspec⟩ := ih (i + 1) rs hcr
                    refine ⟨by simp [hlen], ?_⟩
                    intro k hk j hj
                    match k with
                    | 0 =>
                        obtain ⟨h1, h2, h3⟩ := checkEntries_mem n i entries js hce j hj
                        refine ⟨h1, h2, ?_⟩
                        intro hcon
                        apply h3
                        push_cast at hcon ⊢
                        omega
                    | k + 1 =>
                        have hk' : k < rs.length := by simpa using hk
                        obtain ⟨h1, h2, h3⟩ := hspec k hk' j (by simpa using hj)
                        refine ⟨h1, h2, ?_⟩
                        intro hcon
                        apply h3
                        push_cast at hcon ⊢
                        omega

theorem fillRows_length (n : Nat) (pa : Bool) :
    ∀ (l : List (List Int)) (i : Nat), (fillRows n pa i l).length = l.length := by
  intro l
  induction l with
  | nil => intro i; rfl
  | cons row rest ih =>
      intro i
      show ((if i < n then fillRow n pa i row else row) :: fillRows n pa (i + 1) rest).length
        = (row :: rest).length
      simp [ih (i + 1)]

theorem fillRows_get (n : Nat) (pa : Bool) :
    ∀ (l : List (List Int)) (i k : Nat) (hk : k < l.length)
      (hk2 : k < (fillRows n pa i l).length),
      (fillRows n pa i l).get ⟨k, hk2⟩ =
        (if i + k < n then fillRow n pa (i + k) (l.get ⟨k, hk⟩) else l.get ⟨k, hk⟩) := by
  intro l
  induction l with
  | nil => intro i k hk; cases hk
  | cons row rest ih =>
      intro i k hk hk2
      match k with
      | 0 => simp [fillRows]
      | k + 1 =>
          have hk' : k < rest.length := by simpa using hk
          have hk2' : k < (fillRows n pa (i + 1) rest).length := by
            rw [fillRows_length]; exact hk'
          have := ih (i + 1) k hk' hk2'
          simp only [fillRows, List.get_cons_succ]
          rw [this]
          have harith : i + 1 + k = i + (k + 1) := by omega
          rw [harith]

theorem fillRow_mem (n : Nat) (pa : Bool) (i : Nat) (row : List Int) (j : Int) :
    j ∈ fillRow n pa i row →
      j ∈ row ∨ (∃ v : Nat, 1 ≤ v ∧ v ≤ n ∧ (v : Int) ≠ (i : Int) + 1 ∧ j = (v : Int)) ∨
        (pa = true ∧ j = (n : Int) + 1) := by
  intro hj
  unfold fillRow at hj
  have hmem1 : ∀ l1 : List Int,
      j ∈ (if row.length ≠ n - 1 then
        row ++ ((List.range' 1 n).map (fun (v : Nat) => (v : Int))).filter
          (fun v => ¬ v ∈ row ∧ v ≠ (i : Int) + 1)
      else row) →
      j ∈ row ∨ (∃ v : Nat, 1 ≤ v ∧ v ≤ n ∧ (v : Int) ≠ (i : Int) + 1 ∧ j = (v : Int)) := by
    intro l1 hj1
    by_cases hlen : row.length ≠ n - 1
    · rw [if_pos hlen] at hj1
      rcases List.mem_append.1 hj1 with hr | hf
      · exact Or.inl hr
      · obtain ⟨hjm, hcond⟩ := List.mem_filter.1 hf
        obtain ⟨v, hv, rfl⟩ := List.mem_map.1 hjm
        have hrange := List.mem_range'_1.1 hv
        have hc := of_decide_eq_true hcond
        exact Or.inr ⟨v, by omega, by omega, hc.2, rfl⟩
    · rw [if_neg hlen] at hj1
      exact Or.inl hj1
  by_cases hpa : pa = true
  · rw [hpa] at hj
    simp only [if_true] at hj
    rcases List.mem_append.1 hj with hj1 | hj2
    · rcases hmem1 row hj1 with h | h
      · exact Or.inl h
      · exact Or.inr (Or.inl h)
    · exact Or.inr (Or.inr ⟨hpa, by simpa using hj2⟩)
  · have hpa' : pa = false := by simpa using hpa
    rw [hpa'] at hj
    simp only [if_false] at hj
    rcases hmem1 row hj with h | h
    · exact Or.inl h
    · exact Or.inr (Or.inl h)

theorem selfFree_fill (n : Nat) (pa0 : Bool) (mat1 : List (List Int))
    (hrows : ∀ k (hk : k < mat1.length), ∀ j ∈ mat1.get ⟨k, hk⟩,
      (1 ≤ j ∧ j ≤ (n : Int) ∧ j ≠ (k : Int) + 1) ∨
      (n ≤ k ∧ ∃ v : Nat, 1 ≤ v ∧ v ≤ n ∧ j = (v : Int))) :
    ∀ p : Nat, p ∉ prefsOfMatrix (fillRows n pa0 0 mat1) p := by
  intro p hp
  obtain ⟨j, hj, hjp⟩ := List.mem_map.1 hp
  by_cases hcase : p - 1 < (fillRows n pa0 0 mat1).length
  · rw [List.getD_eq_get _ [] hcase] at hj
    have hk1 : p - 1 < mat1.length := by rw [fillRows_length] at hcase; exact hcase
    rw [fillRows_get n pa0 mat1 0 (p - 1) hk1 hcase] at hj
    by_cases hfill : 0 + (p - 1) < n
    · rw [if_pos hfill] at hj
      rcases fillRow_mem n pa0 (0 + (p - 1)) _ j hj with hr | hfillv | hph
      · rcases hrows (p - 1) hk1 j hr with ⟨ha, hb, hc⟩ | ⟨hk, v, hv1, hv2, rfl⟩
        · omega
        · omega
      · obtain ⟨v, hv1, hv2, hvne, rfl⟩ := hfillv
        omega
      · obtain ⟨hpa1, hj1⟩ := hph
        omega
    · rw [if_neg hfill] at hj
      rcases hrows (p - 1) hk1 j hj with ⟨ha, hb, hc⟩ | ⟨hk, v, hv1, hv2, rfl⟩
      · omega
      · omega
  · rw [List.getD_eq_default _ [] (by omega)] at hj
    cases hj

theorem validate_input_facts :
    ∀ (input : PyVal) (pa : Bool) (M : List (List Int)),
      validate_input input = .ok (some (pa, M)) →
      ∃ rows : List PyVal, input = .list rows ∧ 2 ≤ rows.length ∧
        (pa = true ↔ rows.length % 2 = 1) ∧
        M.length = (if pa = true then rows.length + 1 else rows.length) ∧
        (∀ p : Nat, p ∉ prefsOfMatrix M p) := by
  intro input pa M h
  cases input with
  | int v => cases h
  | str sv => simp [validate_input, pyLen, exc_bind_ok] at h
  | list rows =>
      refine ⟨rows, rfl, ?_⟩
      simp only [validate_input, pyLen, exc_bind_ok] at h
      by_cases hn : rows.length ≤ 1
      · rw [if_pos hn] at h
        simp at h
      · rw [if_neg hn] at h
        cases hcr : checkRows rows.length 0 rows with
        | none => rw [hcr] at h; simp at h
        | some mat =>
            rw [hcr] at h
            injection h with h1
            injection h1 with h2
            have hpa : pa = decide (rows.length % 2 ≠ 0) := by
              have hfst := congrArg Prod.fst h2
              simpa using hfst.symm
            have hM : M = fillRows rows.length (decide (rows.length % 2 ≠ 0)) 0
                (if rows.length % 2 ≠ 0 then
                  mat ++ [(List.range' 1 rows.length).map (fun (v : Nat) => (v : Int))]
                else mat) := by
              have hsnd := congrArg Prod.snd h2
              simpa using hsnd.symm
            obtain ⟨hmlen, hmspec⟩ := checkRows_spec rows.length rows 0 mat hcr
            have hlen2 : 2 ≤ rows.length := by omega
            have hparity : pa = true ↔ rows.length % 2 = 1 := by
              rw [hpa]
              simp only [decide_eq_true_eq]
              omega
            by_cases ho : rows.length % 2 ≠ 0
            · rw [if_pos ho] at hM
              subst hM
              refine ⟨hlen2, hparity, ?_, ?_⟩
              · rw [fillRows_length, if_pos (hparity.2 (by omega))]
                simp [hmlen]
              · apply selfFree_fill
                intro k hk j hj
                by_cases hmc : k < mat.length
                · left
                  rw [List.get_append k hmc] at hj
                  obtain ⟨ha, hb, hc⟩ := hmspec k hmc j hj
                  exact ⟨ha, hb, by simpa using hc⟩
                · right
                  have hkm : k = mat.length := by
                    have hlen : (mat ++
                        [(List.range' 1 rows.length).map (fun (v : Nat) => (v : Int))]).length
                          = mat.length + 1 := by simp
                    rw [hlen] at hk
                    omega
                  have hget2 : (mat ++
                      [(List.range' 1 rows.length).map (fun (v : Nat) => (v : Int))]).get
                        ⟨k, hk⟩ =
                      (List.range' 1 rows.length).map (fun (v : Nat) => (v : Int)) := by
                    subst hkm
                    simp [List.get_eq_getElem, List.getElem_concat_length]
                  rw [hget2] at hj
                  obtain ⟨v, hv, rfl⟩ := List.mem_map.1 hj
                  have hvr := List.mem_range'_1.1 hv
                  exact ⟨by omega, v, by omega, by omega, rfl⟩
            · rw [if_neg ho] at hM
              subst hM
              have hpf : ¬ pa = true := fun hc => by
                have := hparity.1 hc
                omega
              refine ⟨hlen2, hparity, ?_, ?_⟩
              · rw [fillRows_length, if_neg hpf]
                exact hmlen
              · apply selfFree_fill
                intro k hk j hj
                left
                obtain ⟨ha, hb, hc⟩ := hmspec k hk j hj
                exact ⟨ha, hb, by simpa using hc⟩

/-- Extraction from a successful verify_matching: every participant is matched
to a participant, symmetrically (keys = values as sets plus the involution
check give, for each key p, a partner q with matching[q] = p). -/
theorem verify_matching_spec :
    ∀ (people : List Person) (holds : Person → Option Person),
      verify_matching people holds = true →
      ∀ p ∈ people, ∃ q : Nat, holds p = some q ∧ q ∈ people ∧ holds q = some p := by
  intro people holds h p hp
  unfold verify_matching at h
  by_cases hc : (people.all (fun p => (some p) ∈ people.map holds) &&
      (people.map holds).all (fun v =>
        match v with
        | some q => q ∈ people
        | none => false)) = true
  · rw [if_pos hc] at h
    rw [Bool.and_eq_true] at hc
    obtain ⟨h1, h2⟩ := hc
    have hv : holds p ∈ people.map holds := List.mem_map.2 ⟨p, hp, rfl⟩
    have h2' := List.all_eq_true.mp h2 _ hv
    cases hhp : holds p with
    | none => rw [hhp] at h2'; cases h2'
    | some q =>
        rw [hhp] at h2'
        have hq : q ∈ people := by simpa using h2'
        have h3 := List.all_eq_true.mp h p hp
        rw [hhp] at h3
        simp only [] at h3
        cases hhq : holds q with
        | none => rw [hhq] at h3; cases h3
        | some r =>
            rw [hhq] at h3
            have hpr : p = r := by simpa using h3
            exact ⟨q, rfl, hq, by rw [hhq, ← hpr]⟩
  · rw [if_neg hc] at h
    cases h

/-- **C1.** Whenever stable_roommates returns a matching (not None), the input
passed validation and the returned assignment passed both verify_matching and
verify_stability before being formatted: it is a symmetric matching over the
participants with no blocking pair, and -1 entries occur only via phantom
removal on odd input sizes — no -1 at all when the input had evenly many rows,
and exactly one -1 when a phantom participant was added for an odd row
count. -/
theorem stable_roommates_returns_verified :
    ∀ (input : PyVal) (os : Nat → List Person) (fuel : Nat) (out : List Int),
      stable_roommates input os fuel = .ok (some out) →
      ∃ (rows : List PyVal) (pa : Bool) (M : List (List Int))
        (holds : Person → Option Person),
        input = .list rows ∧
        validate_input input = .ok (some (pa, M)) ∧
        (pa = true ↔ rows.length % 2 = 1) ∧
        verify_matching (List.range' 1 M.length) holds = true ∧
        verify_stability (List.range' 1 M.length) holds
          (ranksOf (prefsOfMatrix M)) = .ok true ∧
        finalize (List.range' 1 M.length) pa holds (ranksOf (prefsOfMatrix M))
          = .ok (some out) ∧
        (∀ p ∈ List.range' 1 M.length, ∃ q, holds p = some q ∧
          q ∈ List.range' 1 M.length ∧ holds q = some p) ∧
        (pa = false → (-1 : Int) ∉ out) ∧
        (pa = true → out.count (-1) = 1) := by
  intro input os fuel out h
  unfold stable_roommates at h
  obtain ⟨v, hval, h⟩ := exc_bind_ok_inv _ _ _ h
  cases v with
  | none => simp at h
  | some pM =>
      obtain ⟨pa, M⟩ := pM
      simp only [] at h
      have key : ∀ holds : Person → Option Person,
          finalize (List.range' 1 M.length) pa holds
            (ranksOf (prefsOfMatrix M)) = .ok (some out) →
          ∃ (rows : List PyVal) (pa' : Bool) (M' : List (List Int))
            (holds' : Person → Option Person),
            input = .list rows ∧
            validate_input input = .ok (some (pa', M')) ∧
            (pa' = true ↔ rows.length % 2 = 1) ∧
            verify_matching (List.range' 1 M'.length) holds' = true ∧
            verify_stability (List.range' 1 M'.length) holds'
              (ranksOf (prefsOfMatrix M')) = .ok true ∧
            finalize (List.range' 1 M'.length) pa' holds'
              (ranksOf (prefsOfMatrix M')) = .ok (some out) ∧
            (∀ p ∈ List.range' 1 M'.length, ∃ q, holds' p = some q ∧
              q ∈ List.range' 1 M'.length ∧ holds' q = some p) ∧
            (pa' = false → (-1 : Int) ∉ out) ∧
            (pa' = true → out.count (-1) = 1) := by
        intro holds hfin
        obtain ⟨hvm, hvs, hform⟩ := finalize_ok_spec _ _ _ _ _ hfin
        obtain ⟨rows, hre, hlen2, hparity, hMlen, hself⟩ :=
          validate_input_facts input pa M hval
        have hNlen : (List.range' 1 M.length).length = M.length :=
          List.length_range' ..
        have hN2 : 2 ≤ M.length := by
          rw [hMlen]
          split <;> omega
        refine ⟨rows, pa, M, holds, hre, hval, hparity, hvm, hvs, hfin,
          fun p hp => verify_matching_spec _ _ hvm p hp, ?_, ?_⟩
        · intro hpa hmem
          rcases hform with ⟨hpf, hout⟩ | ⟨hpt, _⟩
          · rw [hout, hNlen] at hmem
            obtain ⟨i, hi, hEq⟩ := List.mem_map.1 hmem
            omega
          · rw [hpt] at hpa; cases hpa
        · intro hpa
          rcases hform with ⟨hpf, _⟩ | ⟨hpt, pm, hpm, hout⟩
          · rw [hpf] at hpa; cases hpa
          · rw [hNlen] at hpm hout
            have hNmem : M.length ∈ List.range' 1 M.length := by
              rw [List.mem_range'_1]; omega
            obtain ⟨q, hq1, hq2, hq3⟩ := verify_matching_spec _ _ hvm _ hNmem
            rw [hpm] at hq1
            injection hq1 with hqpm
            subst hqpm
            rw [List.mem_range'_1] at hq2
            have hpmK : 1 ≤ pm ∧
                pm ≤ (if pm = M.length then M.length else M.length - 1) := by
              split <;> omega
            rw [hout, List.count_eq_countP, List.countP_map]
            have hcongr : ∀ a ∈
                List.range (if pm = M.length then M.length
                  else M.length - 1),
                (((fun x => x == (-1 : Int)) ∘ fun i =>
                  if i + 1 = pm then (-1 : Int)
                  else ((holds (i + 1)).getD 0 : Int)) a = true ↔
                  (a == pm - 1) = true) := by
              intro a _
              simp only [Function.comp]
              by_cases hip : a + 1 = pm
              · rw [if_pos hip]
                simp only [beq_iff_eq, true_iff]
                omega
              · rw [if_neg hip]
                simp only [beq_iff_eq]
                constructor
                · intro hcast; omega
                · intro hpa1; omega
            rw [List.countP_congr hcongr, ← List.count_eq_countP]
            apply List.count_eq_one_of_mem (List.nodup_range _)
            rw [List.mem_range]
            omega
      cases hp1 : phase_1 (prefsOfMatrix M) (ranksOf (prefsOfMatrix M))
          (os 0) (fun _ => 0) fuel with
      | error e => rw [hp1, exc_bind_err] at h; cases h
      | ok st =>
          rw [hp1, exc_bind_ok] at h
          by_cases hany : (List.range' 1 M.length).any
              (fun p => (st.holds p).isNone) = true
          · rw [if_pos hany] at h; simp at h
          · rw [if_neg (by simpa using hany)] at h
            cases hred : phase_1_reduce (List.range' 1 M.length)
                (prefsOfMatrix M) (ranksOf (prefsOfMatrix M)) st.holds with
            | error e => rw [hred, exc_bind_err] at h; cases h
            | ok red =>
                rw [hred, exc_bind_ok] at h
                by_cases hhalt : (List.range' 1 M.length).all
                    (fun p => (red p).length ≤ 1) = true
                · rw [if_pos hhalt] at h
                  exact key st.holds h
                · rw [if_neg (by simpa using hhalt)] at h
                  cases hcyc : find_all_or_nothing_cycle
                      (List.range' 1 M.length) red fuel with
                  | error e => rw [hcyc, exc_bind_err] at h; cases h
                  | ok cy =>
                      rw [hcyc, exc_bind_ok] at h
                      cases cy with
                      | none => simp at h
                      | some cyc =>
                          simp only [] at h
                          by_cases h3 : cyc.length = 3
                          · rw [if_pos h3] at h; simp at h
                          · rw [if_neg h3] at h
                            cases hp2 : phase_2_reduce
                                (List.range' 1 M.length)
                                (ranksOf (prefsOfMatrix M)) os fuel red
                                cyc with
                            | error e =>
                                rw [hp2, exc_bind_err] at h; cases h
                            | ok h2o =>
                                rw [hp2, exc_bind_ok] at h
                                cases h2o with
                                | none => simp at h
                                | some h2 => exact key h2 h

/-- Witness for the C1 theorem: the 2-person instance [[2],[1]] with the
ascending proposal order returns [2, 1], and the verified facts hold for it. -/
theorem stable_roommates_returns_verified_witness :
    ∃ (rows : List PyVal) (pa : Bool) (M : List (List Int))
      (holds : Person → Option Person),
      encM [[2], [1]] = .list rows ∧
      validate_input (encM [[2], [1]]) = .ok (some (pa, M)) ∧
      (pa = true ↔ rows.length % 2 = 1) ∧
      verify_matching (List.range' 1 M.length) holds = true ∧
      verify_stability (List.range' 1 M.length) holds
        (ranksOf (prefsOfMatrix M)) = .ok true ∧
      finalize (List.range' 1 M.length) pa holds (ranksOf (prefsOfMatrix M))
        = .ok (some [2, 1]) ∧
      (∀ p ∈ List.range' 1 M.length, ∃ q, holds p = some q ∧
        q ∈ List.range' 1 M.length ∧ holds q = some p) ∧
      (pa = false → (-1 : Int) ∉ [2, 1]) ∧
      (pa = true → ([2, 1] : List Int).count (-1) = 1) :=
  stable_roommates_returns_verified (encM [[2], [1]]) (fun _ => [1, 2]) 100
    [2, 1] (by rfl)

/-! ### Phase-1 invariant machinery (for the termination claim) -/

/-- y's proposal is currently held by someone. -/
def accepted (st : P1St) (y : Person) : Prop := ∃ e, st.holds e = some y

/-- y has proposed to everyone on their list. -/
def exhausted (prefs : Person → List Person) (st : P1St) (y : Person) : Prop :=
  (prefs y).length ≤ st.curr y

/-- Total remaining proposal budget: the number of proposals phase_1 can still
make before every list is exhausted. -/
def p1Measure (people : List Person) (prefs : Person → List Person)
    (st : P1St) : Nat :=
  (people.map (fun p => (prefs p).length - st.curr p)).sum

/-- The state invariant maintained by every phase-1 step: positions are in
range; every proposee already tried holds someone; held proposals come from
participants and were made along the proposer's list; recorded proposees hold
someone; before any proposal is made no position has advanced; the last tried
proposee holds someone. -/
def StInv (people : List Person) (prefs : Person → List Person)
    (st : P1St) : Prop :=
  (∀ p, st.curr p ≤ (prefs p).length) ∧
  (∀ p i (hi : i < (prefs p).length), i < st.curr p →
    st.holds ((prefs p).get ⟨i, hi⟩) ≠ none) ∧
  (∀ e P, st.holds e = some P → P ∈ people ∧ e ∈ prefs P) ∧
  (∀ e ∈ st.proposed, st.holds e ≠ none) ∧
  (st.lastE = none → ∀ y, st.curr y = 0) ∧
  (∀ e, st.lastE = some e → st.holds e ≠ none)

/-- The boundary invariant (between whole proposal chains): additionally,
everyone who holds a proposal has been recorded in the proposed set. -/
def StInvB (people : List Person) (prefs : Person → List Person)
    (st : P1St) : Prop :=
  StInv people prefs st ∧ (∀ e, st.holds e ≠ none → e ∈ st.proposed)

theorem fupd_same {α : Type} (f : Person → α) (p : Person) (v : α) :
    fupd f p v p = v := by simp [fupd]

theorem fupd_other {α : Type} (f : Person → α) (p q : Person) (v : α)
    (h : q ≠ p) : fupd f p v q = f q := by simp [fupd, h]

theorem lastIdx_isSome_of_mem (b : Person) :
    ∀ l : List Person, b ∈ l → ∃ k, lastIdx b l = some k := by
  intro l
  induction l with
  | nil => intro h; cases h
  | cons z rest ih =>
      intro h
      unfold lastIdx
      cases hr : lastIdx b rest with
      | some k => exact ⟨k + 1, rfl⟩
      | none =>
          rcases List.mem_cons.1 h with rfl | hm
          · exact ⟨0, by rw [if_pos rfl]⟩
          · obtain ⟨k, hk⟩ := ih hm
            rw [hr] at hk
            cases hk

theorem ranksOf_ok (prefs : Person → List Person) (a b : Person)
    (h : b ∈ prefs a) : ∃ k, ranksOf prefs a b = .ok k := by
  obtain ⟨k, hk⟩ := lastIdx_isSome_of_mem b (prefs a) h
  exact ⟨k, by unfold ranksOf; rw [hk]⟩

theorem mapSum_lt (f g : Person → Nat) :
    ∀ (l : List Person) (P : Person), P ∈ l → f P < g P →
      (∀ p ∈ l, f p ≤ g p) → (l.map f).sum < (l.map g).sum := by
  intro l
  induction l with
  | nil => intro P hP; cases hP
  | cons a rest ih =>
      intro P hP hlt hle
      rcases List.mem_cons.1 hP with rfl | hPr
      · simp only [List.map_cons, List.sum_cons]
        have hrest : (rest.map f).sum ≤ (rest.map g).sum :=
          List.sum_le_sum (fun p hp => hle p (List.mem_cons_of_mem _ hp))
        omega
      · simp only [List.map_cons, List.sum_cons]
        have h1 : f a ≤ g a := hle a (List.mem_cons_self ..)
        have h2 := ih P hPr hlt (fun p hp => hle p (List.mem_cons_of_mem _ hp))
        omega

theorem p1Measure_le (people : List Person) (prefs : Person → List Person)
    (st st' : P1St) (h : ∀ y, st.curr y ≤ st'.curr y) :
    p1Measure people prefs st' ≤ p1Measure people prefs st := by
  unfold p1Measure
  exact List.sum_le_sum (fun p _ => by have := h p; omega)

theorem p1Measure_lt (people : List Person) (prefs : Person → List Person)
    (st st' : P1St) (P : Person) (hP : P ∈ people)
    (hmono : ∀ y, st.curr y ≤ st'.curr y)
    (hlt : st.curr P < st'.curr P) (hlen : st.curr P < (prefs P).length) :
    p1Measure people prefs st' < p1Measure people prefs st := by
  unfold p1Measure
  apply mapSum_lt _ _ people P hP
  · omega
  · intro p hp
    have := hmono p
    omega

/-- One-step unfolding of innerLoop: the proposer's list is exhausted. -/
theorem innerLoop_stop (prefs : Person → List Person)
    (rk : Person → Person → Except PyErr Nat) (P : Person) (st : P1St)
    (n : Nat) (h : ¬ st.curr P < (prefs P).length) :
    innerLoop prefs rk P st (n + 1) = .ok st := by
  simp only [innerLoop]
  rw [dif_neg h]

/-- One-step unfolding of innerLoop: the next proposee holds no one, so the
proposal is accepted immediately. -/
theorem innerLoop_step_none (prefs : Person → List Person)
    (rk : Person → Person → Except PyErr Nat) (P : Person) (st : P1St)
    (n : Nat) (h : st.curr P < (prefs P).length)
    (hhe : st.holds ((prefs P).get ⟨st.curr P, h⟩) = none) :
    innerLoop prefs rk P st (n + 1) = .ok
      { holds := fupd st.holds ((prefs P).get ⟨st.curr P, h⟩) (some P),
        curr := fupd st.curr P (st.curr P + 1),
        proposed := st.proposed,
        lastE := some ((prefs P).get ⟨st.curr P, h⟩),
        lastH := some none } := by
  simp only [innerLoop]
  rw [dif_pos h, hhe]

/-- One-step unfolding of innerLoop: the next proposee holds someone, so the
ranks are compared; acceptance on strict improvement, otherwise the walk
continues from the advanced position. -/
theorem innerLoop_step_some (prefs : Person → List Person)
    (rk : Person → Person → Except PyErr Nat) (P : Person) (st : P1St)
    (n : Nat) (h' : Person) (h : st.curr P < (prefs P).length)
    (hhe : st.holds ((prefs P).get ⟨st.curr P, h⟩) = some h') :
    innerLoop prefs rk P st (n + 1) = (do
      let a ← rk ((prefs P).get ⟨st.curr P, h⟩) P
      let b ← rk ((prefs P).get ⟨st.curr P, h⟩) h'
      if a < b then
        (Except.ok
          { holds := fupd st.holds ((prefs P).get ⟨st.curr P, h⟩) (some P),
            curr := fupd st.curr P (st.curr P + 1),
            proposed := st.proposed,
            lastE := some ((prefs P).get ⟨st.curr P, h⟩),
            lastH := some (some h') })
      else
        (innerLoop prefs rk P
          { holds := st.holds,
            curr := fupd st.curr P (st.curr P + 1),
            proposed := st.proposed,
            lastE := some ((prefs P).get ⟨st.curr P, h⟩),
            lastH := some (some h') } n)) := by
  simp only [innerLoop]
  rw [dif_pos h, hhe]

/-- The invariant survives an acceptance step. -/
theorem StInv_accept (people : List Person) (prefs : Person → List Person)
    (P : Person) (hP : P ∈ people) (st : P1St)
    (hinv : StInv people prefs st)
    (hlt : st.curr P < (prefs P).length) (lh : Option (Option Person)) :
    StInv people prefs
      { holds := fupd st.holds ((prefs P).get ⟨st.curr P, hlt⟩) (some P),
        curr := fupd st.curr P (st.curr P + 1),
        proposed := st.proposed,
        lastE := some ((prefs P).get ⟨st.curr P, hlt⟩),
        lastH := lh } := by
  obtain ⟨inv1, inv2, inv3, inv4, inv6, inv7⟩ := hinv
  refine ⟨?_, ?_, ?_, ?_, ?_, ?_⟩ <;> dsimp only
  · intro p
    by_cases hp : p = P
    · rw [hp, fupd_same]
      have := inv1 P
      omega
    · rw [fupd_other _ _ _ _ hp]
      exact inv1 p
  · intro p i hi hic
    by_cases hge : (prefs p).get ⟨i, hi⟩ = (prefs P).get ⟨st.curr P, hlt⟩
    · rw [hge, fupd_same]
      exact Option.some_ne_none P
    · rw [fupd_other _ _ _ _ hge]
      by_cases hp : p = P
      · subst hp
        rw [fupd_same] at hic
        by_cases hi2 : i < st.curr p
        · exact inv2 p i hi hi2
        · exfalso
          apply hge
          have hieq : i = st.curr p := by omega
          subst hieq
          rfl
      · rw [fupd_other _ _ _ _ hp] at hic
        exact inv2 p i hi hic
  · intro e' Q hq
    by_cases hee : e' = (prefs P).get ⟨st.curr P, hlt⟩
    · subst hee
      rw [fupd_same] at hq
      injection hq with hq2
      subst hq2
      exact ⟨hP, List.get_mem ..⟩
    · rw [fupd_other _ _ _ _ hee] at hq
      exact inv3 e' Q hq
  · intro e' he'
    by_cases hee : e' = (prefs P).get ⟨st.curr P, hlt⟩
    · rw [hee, fupd_same]
      exact Option.some_ne_none P
    · rw [fupd_other _ _ _ _ hee]
      exact inv4 e' he'
  · intro hnone
    cases hnone
  · intro e' he'
    injection he' with he2
    subst he2
    rw [fupd_same]
    exact Option.some_ne_none P

/-- The invariant survives a rejected proposal (position advance only). -/
theorem StInv_advance (people : List Person) (prefs : Person → List Person)
    (P : Person) (st : P1St) (hinv : StInv people prefs st)
    (hlt : st.curr P < (prefs P).length) (h' : Person)
    (hhe : st.holds ((prefs P).get ⟨st.curr P, hlt⟩) = some h')
    (lh : Option (Option Person)) :
    StInv people prefs
      { holds := st.holds,
        curr := fupd st.curr P (st.curr P + 1),
        proposed := st.proposed,
        lastE := some ((prefs P).get ⟨st.curr P, hlt⟩),
        lastH := lh } := by
  obtain ⟨inv1, inv2, inv3, inv4, inv6, inv7⟩ := hinv
  refine ⟨?_, ?_, ?_, ?_, ?_, ?_⟩ <;> dsimp only
  · intro p
    by_cases hp : p = P
    · rw [hp, fupd_same]
      have := inv1 P
      omega
    · rw [fupd_other _ _ _ _ hp]
      exact inv1 p
  · intro p i hi hic
    by_cases hp : p = P
    · subst hp
      rw [fupd_same] at hic
      by_cases hi2 : i < st.curr p
      · exact inv2 p i hi hi2
      · have hieq : i = st.curr p := by omega
        subst hieq
        show st.holds ((prefs p).get ⟨st.curr p, hlt⟩) ≠ none
        rw [hhe]
        exact Option.some_ne_none h'
    · rw [fupd_other _ _ _ _ hp] at hic
      exact inv2 p i hi hic
  · exact inv3
  · exact inv4
  · intro hnone
    cases hnone
  · intro e' he'
    injection he' with he2
    subst he2
    rw [hhe]
    exact Option.some_ne_none h'

/-- Complete run of the inner proposal walk: with fuel exceeding the remaining
list, it never fails, preserves the invariant, and ends either with the
proposer's list exhausted and holds unchanged, or with exactly one new
acceptance recorded for the proposer. -/
theorem innerLoop_spec (people : List Person) (prefs : Person → List Person)
    (hcomp : ∀ p ∈ people, ∀ q : Nat, q ∈ prefs p ↔ (q ∈ people ∧ q ≠ p))
    (P : Person) (hP : P ∈ people) :
    ∀ (fuel : Nat) (st : P1St),
      StInv people prefs st →
      (prefs P).length - st.curr P < fuel →
      ∃ st1, innerLoop prefs (ranksOf prefs) P st fuel = .ok st1 ∧
        StInv people prefs st1 ∧
        st1.proposed = st.proposed ∧
        (∀ y, st.curr y ≤ st1.curr y) ∧
        (∀ y, y ≠ P → st1.curr y = st.curr y) ∧
        (∀ e, st.holds e ≠ none → st1.holds e ≠ none) ∧
        (((prefs P).length ≤ st1.curr P ∧ st1.holds = st.holds ∧
            ((∃ e, st1.lastE = some e) ∨
              (st1.lastE = st.lastE ∧ st1.curr P = st.curr P))) ∨
          (∃ e h0, st1.lastE = some e ∧ st1.lastH = some h0 ∧
            st.holds e = h0 ∧ st1.holds = fupd st.holds e (some P) ∧
            st.curr P < st1.curr P ∧ st.curr P < (prefs P).length)) := by
  intro fuel
  induction fuel with
  | zero =>
      intro st _ hf
      exact absurd hf (by omega)
  | succ n ih =>
      intro st hinv hf
      have hinv' := hinv
      obtain ⟨inv1, inv2, inv3, inv4, inv6, inv7⟩ := hinv'
      by_cases hlt : st.curr P < (prefs P).length
      · have he_mem : (prefs P).get ⟨st.curr P, hlt⟩ ∈ prefs P :=
          List.get_mem ..
        have he_pp := (hcomp P hP _).1 he_mem
        have heP : (prefs P).get ⟨st.curr P, hlt⟩ ∈ people := he_pp.1
        have heNe : (prefs P).get ⟨st.curr P, hlt⟩ ≠ P := he_pp.2
        cases hhe : st.holds ((prefs P).get ⟨st.curr P, hlt⟩) with
        | none =>
            rw [innerLoop_step_none prefs (ranksOf prefs) P st n hlt hhe]
            refine ⟨_, rfl, StInv_accept people prefs P hP st hinv hlt _,
              rfl, ?_, ?_, ?_, ?_⟩
            · intro y
              dsimp only
              by_cases hy : y = P
              · rw [hy, fupd_same]
                omega
              · rw [fupd_other _ _ _ _ hy]
            · intro y hy
              dsimp only
              rw [fupd_other _ _ _ _ hy]
            · intro e' he'
              dsimp only
              by_cases hee : e' = (prefs P).get ⟨st.curr P, hlt⟩
              · rw [hee, fupd_same]
                exact Option.some_ne_none P
              · rw [fupd_other _ _ _ _ hee]
                exact he'
            · right
              refine ⟨_, _, rfl, rfl, hhe, rfl, ?_, hlt⟩
              dsimp only
              rw [fupd_same]
              omega
        | some h' =>
            have hh := inv3 _ _ hhe
            have hhPeople : h' ∈ people := hh.1
            have hhNe : (prefs P).get ⟨st.curr P, hlt⟩ ≠ h' :=
              ((hcomp h' hhPeople _).1 hh.2).2
            obtain ⟨ra, hra⟩ := ranksOf_ok prefs _ P
              ((hcomp _ heP P).2 ⟨hP, fun hc => heNe hc.symm⟩)
            obtain ⟨rb, hrb⟩ := ranksOf_ok prefs _ h'
              ((hcomp _ heP h').2 ⟨hhPeople, fun hc => hhNe hc.symm⟩)
            rw [innerLoop_step_some prefs (ranksOf prefs) P st n h' hlt hhe,
              hra, exc_bind_ok, hrb, exc_bind_ok]
            by_cases hab : ra < rb
            · rw [if_pos hab]
              refine ⟨_, rfl, StInv_accept people prefs P hP st hinv hlt _,
                rfl, ?_, ?_, ?_, ?_⟩
              · intro y
                dsimp only
                by_cases hy : y = P
                · rw [hy, fupd_same]
                  omega
                · rw [fupd_other _ _ _ _ hy]
              · intro y hy
                dsimp only
                rw [fupd_other _ _ _ _ hy]
              · intro e' he'
                dsimp only
                by_cases hee : e' = (prefs P).get ⟨st.curr P, hlt⟩
                · rw [hee, fupd_same]
                  exact Option.some_ne_none P
                · rw [fupd_other _ _ _ _ hee]
                  exact he'
              · right
                refine ⟨_, _, rfl, rfl, hhe, rfl, ?_, hlt⟩
                dsimp only
                rw [fupd_same]
                omega
            · rw [if_neg hab]
              have hadv := StInv_advance people prefs P st hinv hlt h' hhe
                (some (some h'))
              obtain ⟨st2, heq, hinv2s, hprop2, hmono2, hoth2, hhm2, hdisj2⟩ :=
                ih _ hadv (by dsimp only; rw [fupd_same]; omega)
              refine ⟨st2, heq, hinv2s, ?_, ?_, ?_, hhm2, ?_⟩
              · rw [hprop2]
              · intro y
                have hm := hmono2 y
                dsimp only at hm
                by_cases hy : y = P
                · rw [hy]
                  rw [hy, fupd_same] at hm
                  omega
                · rw [fupd_other _ _ _ _ hy] at hm
                  exact hm
              · intro y hy
                have hm := hoth2 y hy
                dsimp only at hm
                rw [fupd_other _ _ _ _ hy] at hm
                exact hm
              · rcases hdisj2 with ⟨hex, hsame, hlast⟩ | ⟨e2, h0, hE2, hH2,
                    hold2, hupd2, hc2, hc2b⟩
                · left
                  refine ⟨hex, hsame, Or.inl ?_⟩
                  rcases hlast with ⟨e3, h3⟩ | ⟨h3, _⟩
                  · exact ⟨e3, h3⟩
                  · exact ⟨_, h3⟩
                · right
                  refine ⟨e2, h0, hE2, hH2, hold2, hupd2, ?_, hlt⟩
                  dsimp only at hc2
                  rw [fupd_same] at hc2
                  omega
      · rw [innerLoop_stop prefs (ranksOf prefs) P st n hlt]
        refine ⟨st, rfl, hinv, rfl, fun y => Nat.le_refl _, fun y _ => rfl,
          fun e he => he, ?_⟩
        left
        exact ⟨by omega, rfl, Or.inr ⟨rfl, rfl⟩⟩

/-- One-step unfolding of the chain loop once the inner walk's result and the
stale proposee are known. -/
theorem chainLoop_step (prefs : Person → List Person)
    (rk : Person → Person → Except PyErr Nat) (fuel : Nat) (P : Person)
    (st st1 : P1St) (e : Person)
    (hinner : innerLoop prefs rk P st ((prefs P).length + 1) = .ok st1)
    (hE : st1.lastE = some e) :
    chainLoop prefs rk (fuel + 1) P st =
      (if e ∈ st1.proposed then
        (if (prefs P).length ≤ st1.curr P then .ok st1
        else
          (match st1.lastH with
          | none => .error .nameError
          | some none => .error .keyError
          | some (some H) => chainLoop prefs rk fuel H st1))
      else .ok { st1 with proposed := e :: st1.proposed }) := by
  simp only [chainLoop]
  rw [hinner, exc_bind_ok, hE]

/-- Complete run of one proposal chain: with fuel exceeding the remaining
proposal budget it never fails, preserves the boundary invariant, and every
participant who was accepted before (or is the chain's starting proposer) is
afterwards either accepted or covered by some exhausted participant. -/
theorem chainLoop_spec (people : List Person) (prefs : Person → List Person)
    (hcomp : ∀ p ∈ people, ∀ q : Nat, q ∈ prefs p ↔ (q ∈ people ∧ q ≠ p)) :
    ∀ (fuel : Nat) (P : Person) (st : P1St),
      P ∈ people →
      StInvB people prefs st →
      p1Measure people prefs st < fuel →
      (st.curr P < (prefs P).length ∨ ∃ e, st.lastE = some e) →
      ∃ st', chainLoop prefs (ranksOf prefs) fuel P st = .ok st' ∧
        StInvB people prefs st' ∧
        (∀ y, st.curr y ≤ st'.curr y) ∧
        (∀ e, st.holds e ≠ none → st'.holds e ≠ none) ∧
        p1Measure people prefs st' ≤ p1Measure people prefs st ∧
        (∀ y, accepted st y ∨ y = P →
          accepted st' y ∨ ∃ r ∈ people, exhausted prefs st' r) := by
  intro fuel
  induction fuel with
  | zero =>
      intro P st _ _ hm _
      exact absurd hm (by omega)
  | succ n ih =>
      intro P st hP hB hm hstart
      obtain ⟨hinv, inv8⟩ := hB
      obtain ⟨st1, hinner, hinv1, hprop1, hmono1, hoth1, hhm1, hdisj1⟩ :=
        innerLoop_spec people prefs hcomp P hP ((prefs P).length + 1) st hinv
          (by omega)
      have hEx : ∃ e, st1.lastE = some e := by
        rcases hdisj1 with ⟨hex, _, hl⟩ | ⟨e, h0, hE, _, _, _, _, _⟩
        · rcases hl with he | ⟨hsame, hcsame⟩
          · exact he
          · rcases hstart with hc | ⟨e, he⟩
            · exfalso; omega
            · exact ⟨e, by rw [hsame, he]⟩
        · exact ⟨e, hE⟩
      obtain ⟨e, hE⟩ := hEx
      rw [chainLoop_step prefs (ranksOf prefs) n P st st1 e hinner hE]
      by_cases hep : e ∈ st1.proposed
      · rw [if_pos hep]
        by_cases hex : (prefs P).length ≤ st1.curr P
        · rw [if_pos hex]
          refine ⟨st1, rfl, ⟨hinv1, ?_⟩, hmono1, hhm1,
            p1Measure_le people prefs st st1 hmono1, ?_⟩
          · intro e' he'
            rcases hdisj1 with ⟨_, hsame, _⟩ | ⟨e2, h0, hE2, _, hold2, hupd2,
                _, _⟩
            · rw [hsame] at he'
              rw [hprop1]
              exact inv8 e' he'
            · rw [hupd2] at he'
              have he2e : e2 = e := Option.some.inj (hE2.symm.trans hE)
              by_cases hee : e' = e2
              · rw [hee, he2e]
                exact hep
              · rw [fupd_other _ _ _ _ hee] at he'
                rw [hprop1]
                exact inv8 e' he'
          · intro y hy
            rcases hdisj1 with ⟨hex1, hsame, _⟩ | ⟨e2, h0, hE2, hH2, hold2,
                hupd2, hc2, hc2b⟩
            · rcases hy with ⟨ey, hey⟩ | rfl
              · left
                refine ⟨ey, ?_⟩
                rw [hsame]
                exact hey
              · right
                exact ⟨y, hP, hex⟩
            · rcases hy with ⟨ey, hey⟩ | rfl
              · by_cases heye : ey = e2
                · right
                  exact ⟨P, hP, hex⟩
                · left
                  refine ⟨ey, ?_⟩
                  rw [hupd2, fupd_other _ _ _ _ heye]
                  exact hey
              · left
                refine ⟨e2, ?_⟩
                rw [hupd2, fupd_same]
        · rw [if_neg hex]
          rcases hdisj1 with ⟨hex1, _, _⟩ | ⟨e2, h0, hE2, hH2, hold2, hupd2,
              hc2, hc2b⟩
          · exact absurd hex1 hex
          · have he2e : e2 = e := Option.some.inj (hE2.symm.trans hE)
            subst he2e
            have hepSt : e2 ∈ st.proposed := by
              rw [← hprop1]
              exact hep
            have hh0 : st.holds e2 ≠ none := hinv.2.2.2.1 e2 hepSt
            obtain ⟨H, hH0⟩ : ∃ H, h0 = some H := by
              cases hh0v : h0 with
              | none =>
                  rw [hh0v] at hold2
                  exact absurd hold2 hh0
              | some H => exact ⟨H, rfl⟩
            subst hH0
            rw [hH2]
            have hHpeople : H ∈ people := (hinv.2.2.1 e2 H hold2).1
            have hinv8b : ∀ e', st1.holds e' ≠ none → e' ∈ st1.proposed := by
              intro e' he'
              rw [hupd2] at he'
              by_cases hee : e' = e2
              · subst hee
                exact hep
              · rw [fupd_other _ _ _ _ hee] at he'
                rw [hprop1]
                exact inv8 e' he'
            have hmlt : p1Measure people prefs st1 < p1Measure people prefs st :=
              p1Measure_lt people prefs st st1 P hP hmono1 hc2 hc2b
            obtain ⟨st', hrec, hB', hmono', hhm', hmle', hacc'⟩ :=
              ih H st1 hHpeople ⟨hinv1, hinv8b⟩ (by omega) (Or.inr ⟨e2, hE⟩)
            refine ⟨st', hrec, hB', ?_, ?_, ?_, ?_⟩
            · intro y
              exact Nat.le_trans (hmono1 y) (hmono' y)
            · intro e' he'
              exact hhm' e' (hhm1 e' he')
            · omega
            · intro y hy
              rcases hy with ⟨ey, hey⟩ | rfl
              · by_cases heye : ey = e2
                · subst heye
                  rw [hold2] at hey
                  injection hey with hyH
                  rw [← hyH]
                  exact hacc' H (Or.inr rfl)
                · have hacc1 : st1.holds ey = some y := by
                    rw [hupd2, fupd_other _ _ _ _ heye]
                    exact hey
                  exact hacc' y (Or.inl ⟨ey, hacc1⟩)
              · have hacc1 : st1.holds e2 = some y := by
                  rw [hupd2, fupd_same]
                exact hacc' y (Or.inl ⟨e2, hacc1⟩)
      · rw [if_neg hep]
        obtain ⟨i1, i2, i3, i4, i6, i7⟩ := hinv1
        refine ⟨_, rfl, ⟨⟨i1, i2, i3, ?_, ?_, ?_⟩, ?_⟩, ?_, ?_, ?_, ?_⟩
        · intro e' he'
          rcases List.mem_cons.1 he' with rfl | hmem
          · exact i7 e' hE
          · exact i4 e' hmem
        · intro hnone
          cases hnone.symm.trans hE
        · intro e' he'
          exact i7 e' he'
        · intro e' he'
          rcases hdisj1 with ⟨_, hsame, _⟩ | ⟨e2, h0, hE2, _, hold2, hupd2,
              _, _⟩
          · rw [hsame] at he'
            refine List.mem_cons_of_mem _ ?_
            rw [hprop1]
            exact inv8 e' he'
          · have he2e : e2 = e := Option.some.inj (hE2.symm.trans hE)
            subst he2e
            rw [hupd2] at he'
            by_cases hee : e' = e2
            · subst hee
              exact List.mem_cons_self ..
            · rw [fupd_other _ _ _ _ hee] at he'
              refine List.mem_cons_of_mem _ ?_
              rw [hprop1]
              exact inv8 e' he'
        · intro y
          exact hmono1 y
        · intro e' he'
          exact hhm1 e' he'
        · exact p1Measure_le people prefs st _ hmono1
        · intro y hy
          rcases hdisj1 with ⟨hex1, hsame, _⟩ | ⟨e2, h0, hE2, hH2, hold2,
              hupd2, hc2, hc2b⟩
          · rcases hy with ⟨ey, hey⟩ | rfl
            · left
              refine ⟨ey, ?_⟩
              show st1.holds ey = some y
              rw [hsame]
              exact hey
            · right
              exact ⟨y, hP, hex1⟩
          · have he2e : e2 = e := Option.some.inj (hE2.symm.trans hE)
            subst he2e
            rcases hy with ⟨ey, hey⟩ | rfl
            · by_cases heye : ey = e2
              · subst heye
                exfalso
                apply hep
                rw [hprop1]
                apply inv8
                rw [hey]
                exact Option.some_ne_none y
              · left
                refine ⟨ey, ?_⟩
                show st1.holds ey = some y
                rw [hupd2, fupd_other _ _ _ _ heye]
                exact hey
            · left
              refine ⟨e2, ?_⟩
              show st1.holds e2 = some y
              rw [hupd2, fupd_same]

/-- Complete run of the outer proposal loop of phase_1. -/
theorem phase1Go_spec (people : List Person) (prefs : Person → List Person)
    (hcomp : ∀ p ∈ people, ∀ q : Nat, q ∈ prefs p ↔ (q ∈ people ∧ q ≠ p))
    (hlen1 : ∀ x ∈ people, 1 ≤ (prefs x).length) :
    ∀ (order : List Person) (fuel : Nat) (st : P1St),
      (∀ x ∈ order, x ∈ people) →
      StInvB people prefs st →
      p1Measure people prefs st < fuel →
      ∃ st', phase1Go prefs (ranksOf prefs) fuel order st = .ok st' ∧
        StInvB people prefs st' ∧
        (∀ y, st.curr y ≤ st'.curr y) ∧
        p1Measure people prefs st' ≤ p1Measure people prefs st ∧
        (∀ y, accepted st y ∨ y ∈ order →
          accepted st' y ∨ ∃ r ∈ people, exhausted prefs st' r) := by
  intro order
  induction order with
  | nil =>
      intro fuel st _ hB _
      refine ⟨st, rfl, hB, fun y => Nat.le_refl _, Nat.le_refl _, ?_⟩
      intro y hy
      rcases hy with h | h
      · exact Or.inl h
      · cases h
  | cons x rest ih =>
      intro fuel st hord hB hm
      have hx : x ∈ people := hord x (List.mem_cons_self ..)
      have hstart : st.curr x < (prefs x).length ∨ ∃ e, st.lastE = some e := by
        cases hle : st.lastE with
        | none =>
            left
            have h0 := hB.1.2.2.2.2.1 hle x
            rw [h0]
            exact hlen1 x hx
        | some e => exact Or.inr ⟨e, rfl⟩
      obtain ⟨st1, hchain, hB1, hmono1, hhm1, hmle1, hacc1⟩ :=
        chainLoop_spec people prefs hcomp fuel x st hx hB hm hstart
      obtain ⟨st', hgo, hB', hmono', hmle', hacc'⟩ :=
        ih fuel st1 (fun z hz => hord z (List.mem_cons_of_mem _ hz)) hB1
          (by omega)
      refine ⟨st', ?_, hB', ?_, ?_, ?_⟩
      · simp only [phase1Go]
        rw [hchain, exc_bind_ok]
        exact hgo
      · intro y
        exact Nat.le_trans (hmono1 y) (hmono' y)
      · omega
      · intro y hy
        have step : (accepted st1 y ∨ ∃ r ∈ people, exhausted prefs st1 r) →
            (accepted st' y ∨ ∃ r ∈ people, exhausted prefs st' r) := by
          intro h1
          rcases h1 with h1 | ⟨r, hr, hexr⟩
          · exact hacc' y (Or.inl h1)
          · right
            exact ⟨r, hr, Nat.le_trans hexr (hmono' r)⟩
        rcases hy with hacc | hmem
        · exact step (hacc1 y (Or.inl hacc))
        · rcases List.mem_cons.1 hmem with rfl | hrest
          · exact step (hacc1 y (Or.inr rfl))
          · exact hacc' y (Or.inr hrest)

/-- Dropping a none-valued key strictly shrinks the filterMap image. -/
theorem filterMap_length_lt (f : Person → Option Person) :
    ∀ (l : List Person) (q : Person), q ∈ l → f q = none →
      (l.filterMap f).length < l.length := by
  intro l
  induction l with
  | nil => intro q h; cases h
  | cons a rest ih =>
      intro q hq hfq
      rcases List.mem_cons.1 hq with rfl | hmem
      · rw [List.filterMap_cons_none hfq]
        have := List.length_filterMap_le f rest
        simp only [List.length_cons]
        omega
      · cases hfa : f a with
        | none =>
            rw [List.filterMap_cons_none hfa]
            have := ih q hmem hfq
            simp only [List.length_cons]
            omega
        | some b =>
            rw [List.filterMap_cons_some hfa]
            have := ih q hmem hfq
            simp only [List.length_cons]
            omega

/-- Pigeonhole: if every participant's proposal is held by some participant,
then everyone holds a proposal. -/
theorem all_held_of_all_accepted (people : List Person)
    (prefs : Person → List Person)
    (hcomp : ∀ p ∈ people, ∀ q : Nat, q ∈ prefs p ↔ (q ∈ people ∧ q ≠ p))
    (st : P1St)
    (hinv3 : ∀ e P, st.holds e = some P → P ∈ people ∧ e ∈ prefs P)
    (hnd : people.Nodup)
    (hallacc : ∀ y ∈ people, accepted st y) :
    ∀ q ∈ people, st.holds q ≠ none := by
  intro q hq hqnone
  have hsub : people ⊆ people.filterMap st.holds := by
    intro y hy
    obtain ⟨e, he⟩ := hallacc y hy
    have h3 := hinv3 e y he
    have hePeople : e ∈ people := ((hcomp y h3.1 e).1 h3.2).1
    exact List.mem_filterMap.2 ⟨e, hePeople, he⟩
  have h1 := List.Subperm.length_le (List.Nodup.subperm hnd hsub)
  have h2 := filterMap_length_lt st.holds people q hq hqnone
  omega

/-- **C5.** For every complete, validated preference table — every
participant's list is a permutation of all the other participants — phase_1
(with the all-zero starting positions of the initial invocation) terminates
without error whenever the fuel exceeds the total preference length, and on
return either every participant holds exactly one proposal, or some
participant has exhausted their preference list while holding none; in the
latter case stable_roommates, whose phase-1 call this is, returns None. -/
theorem phase_1_terminates_held_or_exhausted :
    ∀ (n : Nat) (prefs : Person → List Person) (order : List Person)
      (fuel : Nat),
      2 ≤ n →
      (∀ p ∈ List.range' 1 n,
        (prefs p).Perm ((List.range' 1 n).filter (fun q => q ≠ p))) →
      order.Perm (List.range' 1 n) →
      ((List.range' 1 n).map (fun p => (prefs p).length)).sum < fuel →
      ∃ st, phase_1 prefs (ranksOf prefs) order (fun _ => 0) fuel = .ok st ∧
        ((∀ q ∈ List.range' 1 n, st.holds q ≠ none) ∨
          (∃ r ∈ List.range' 1 n, st.holds r = none ∧
            (prefs r).length ≤ st.curr r)) ∧
        (∀ (input : PyVal) (pa : Bool) (M : List (List Int))
          (os : Nat → List Person),
          validate_input input = .ok (some (pa, M)) →
          prefsOfMatrix M = prefs → M.length = n → os 0 = order →
          (∃ q ∈ List.range' 1 n, st.holds q = none) →
          stable_roommates input os fuel = .ok none) := by
  intro n prefs order fuel hn hcompP hperm hfuel
  have hcomp : ∀ p ∈ List.range' 1 n, ∀ q : Nat,
      q ∈ prefs p ↔ (q ∈ List.range' 1 n ∧ q ≠ p) := by
    intro p hp q
    rw [(hcompP p hp).mem_iff, List.mem_filter]
    simp
  have hnodup : (List.range' 1 n).Nodup := List.nodup_range' 1 n 1 (by omega)
  have hlen1 : ∀ x ∈ List.range' 1 n, 1 ≤ (prefs x).length := by
    intro x hx
    by_cases hx1 : x = 1
    · have h2 : (2 : Nat) ∈ prefs x := by
        rw [hcomp x hx 2]
        refine ⟨?_, by omega⟩
        rw [List.mem_range'_1]
        omega
      exact List.length_pos_of_mem h2
    · have h1 : (1 : Nat) ∈ prefs x := by
        rw [hcomp x hx 1]
        refine ⟨?_, by omega⟩
        rw [List.mem_range'_1]
        omega
      exact List.length_pos_of_mem h1
  have hB0 : StInvB (List.range' 1 n) prefs
      ⟨fun _ => none, fun _ => 0, [], none, none⟩ := by
    refine ⟨⟨?_, ?_, ?_, ?_, ?_, ?_⟩, ?_⟩
    · intro p
      exact Nat.zero_le _
    · intro p i hi hic
      have hic0 : i < 0 := hic
      exact absurd hic0 (by omega)
    · intro e P h
      cases h
    · intro e he
      cases he
    · intro _ y
      rfl
    · intro e h
      cases h
    · intro e h
      exact absurd rfl h
  have hm0 : p1Measure (List.range' 1 n) prefs
      ⟨fun _ => none, fun _ => 0, [], none, none⟩ < fuel := by
    unfold p1Measure
    dsimp only
    simp only [Nat.sub_zero]
    exact hfuel
  obtain ⟨st, hgo, hB, hmono0, hmle0, hacc⟩ :=
    phase1Go_spec (List.range' 1 n) prefs hcomp hlen1 order fuel
      ⟨fun _ => none, fun _ => 0, [], none, none⟩
      (fun x hx => (hperm.mem_iff).1 hx) hB0 hm0
  have hphase : phase_1 prefs (ranksOf prefs) order (fun _ => 0) fuel
      = .ok st := hgo
  refine ⟨st, hphase, ?_, ?_⟩
  · by_cases hall : ∃ q, q ∈ List.range' 1 n ∧ st.holds q = none
    · right
      obtain ⟨q, hq, hqnone⟩ := hall
      have hnotex : ∀ P, P ∈ List.range' 1 n → P ≠ q →
          ¬ ((prefs P).length ≤ st.curr P) := by
        intro P hPm hPq hex2
        have hqmem : q ∈ prefs P := by
          rw [hcomp P hPm q]
          exact ⟨hq, fun h => hPq h.symm⟩
        obtain ⟨⟨i, hi⟩, hgi⟩ := List.mem_iff_get.1 hqmem
        have h2 := hB.1.2.1 P i hi (by omega)
        rw [hgi] at h2
        exact h2 hqnone
      by_cases hex : ∃ r, r ∈ List.range' 1 n ∧ (prefs r).length ≤ st.curr r
      · obtain ⟨r, hrm, hrex⟩ := hex
        have hrq : r = q := by
          by_contra hne
          exact hnotex r hrm hne hrex
        subst hrq
        exact ⟨r, hrm, hqnone, hrex⟩
      · exfalso
        have hallacc : ∀ y ∈ List.range' 1 n, accepted st y := by
          intro y hy
          rcases hacc y (Or.inr (hperm.mem_iff.2 hy)) with h | ⟨r, hr, hrex⟩
          · exact h
          · exact absurd ⟨r, hr, hrex⟩ hex
        exact all_held_of_all_accepted (List.range' 1 n) prefs hcomp st
          hB.1.2.2.1 hnodup hallacc q hq hqnone
    · left
      intro q hq hnone
      exact hall ⟨q, hq, hnone⟩
  · intro input pa M os hval hpre hM hos hnone
    have hany : ((List.range' 1 M.length).any
        (fun p => (st.holds p).isNone)) = true := by
      rw [List.any_eq_true]
      obtain ⟨q, hq, hqn⟩ := hnone
      refine ⟨q, ?_, ?_⟩
      · rw [hM]
        exact hq
      · rw [hqn]
        rfl
    unfold stable_roommates
    rw [hval, exc_bind_ok]
    simp only [hpre, hos, hphase, exc_bind_ok, hany]
    simp

/-- Witness for the C5 theorem: the complete 2-person table [[2],[1]] with the
ascending proposal order. -/
theorem phase_1_terminates_held_or_exhausted_witness :
    ∃ st, phase_1 (prefsOfMatrix [[2], [1]])
        (ranksOf (prefsOfMatrix [[2], [1]])) [1, 2] (fun _ => 0) 100
        = .ok st ∧
      ((∀ q ∈ List.range' 1 2, st.holds q ≠ none) ∨
        (∃ r ∈ List.range' 1 2, st.holds r = none ∧
          (prefsOfMatrix [[2], [1]] r).length ≤ st.curr r)) ∧
      (∀ (input : PyVal) (pa : Bool) (M : List (List Int))
        (os : Nat → List Person),
        validate_input input = .ok (some (pa, M)) →
        prefsOfMatrix M = prefsOfMatrix [[2], [1]] → M.length = 2 →
        os 0 = [1, 2] →
        (∃ q ∈ List.range' 1 2, st.holds q = none) →
        stable_roommates input os 100 = .ok none) :=
  phase_1_terminates_held_or_exhausted 2 (prefsOfMatrix [[2], [1]])
    [1, 2] 100 (by decide) (by decide) (by decide) (by decide)

end PairMatching
